import Mathlib

/-!  Verification of the market-basket mining engine of the sales-report
service (`src/app/main.py`, endpoint `mine_rules`).

The pipeline is embedded shallowly: transaction and item identifiers are
natural numbers, supports are exact rationals, and every pandas step of the
code (dropna-cleaned row list, crosstab binarisation, `value_counts`, the
insertion-ordered dict of per-product rules, Python's stable `list.sort`
with `key=lift, reverse=True`) is embedded as explicit list manipulation in
the order the code performs it.  The mlxtend `apriori` and
`association_rules` library calls are modelled by their documented
semantics: `apriori` rejects `min_support <= 0`, keeps every itemset with
support `>= min_support` (listed level by level, lexicographically within a
level in the sorted column order), and `association_rules` with
`metric="confidence"` emits, for every frequent itemset of size >= 2 and
every proper non-empty antecedent subset, the rule whose confidence meets
the threshold (antecedent sizes descending, the canonical sorted item order
standing in for Python's unspecified frozenset iteration order). -/

namespace MBMining

abbrev Txn := Nat
abbrev Item := Nat

/-- One (transaction, item) row of the input table, after the code's
`df[[transaction_column, item_column]].dropna()`.  Duplicate rows are
allowed, exactly as in the dataframe. -/
abbrev Pairs := List (Txn × Item)

/-- An association-rule record as returned by the `/mine-rules` endpoint. -/
structure Rule where
  antecedents : List Item
  consequents : List Item
  support : ℚ
  confidence : ℚ
  lift : ℚ
deriving DecidableEq, Repr

/-! ### Generic list utilities mirroring pandas / Python primitives -/

/-- First-occurrence deduplication: the order `pandas.unique` and
`Series.unique` return distinct values in (each value kept at its first
appearance). -/
def uniqFirst (l : List Nat) : List Nat :=
  l.foldl (fun acc x => if acc.contains x then acc else acc ++ [x]) []

/-- Insert into an ascending-sorted list (used for the sorted row/column
labels produced by `pd.crosstab`). -/
def insertAsc (x : Nat) : List Nat → List Nat
  | [] => [x]
  | y :: ys => if x ≤ y then x :: y :: ys else y :: insertAsc x ys

/-- Ascending insertion sort on labels. -/
def sortAsc (l : List Nat) : List Nat := l.foldr insertAsc []

/-- Stable insert for a descending sort by a key: the new element is placed
before every element whose key is `≤` its own, matching the behaviour of
Python's stable `list.sort(key=..., reverse=True)` (an element coming
earlier in the unsorted list stays before later elements with an equal
key). -/
def insertDesc {α β : Type} [LinearOrder β] (key : α → β) (x : α) :
    List α → List α
  | [] => [x]
  | y :: ys => if key x < key y then y :: insertDesc key x ys else x :: y :: ys

/-- Stable descending sort by a key (Python `list.sort(key=..., reverse=True)`,
pandas `sort_values(ascending=False)` on counts). -/
def sortDesc {α β : Type} [LinearOrder β] (key : α → β) (l : List α) : List α :=
  l.foldr (insertDesc key) []

/-! ### Basket encoder (`main.py` lines 416-431)

`df = df[[transaction_column, item_column]].dropna()` gives the row list;
`pd.crosstab(df[transaction_column], df[item_column])` followed by
`(basket_encoded > 0).astype(int)` gives the binary occurrence matrix whose
row labels are the distinct transactions and whose column labels are the
distinct items, both in sorted order.  (The `> 10000` rows branch builds the
same binary matrix via groupby/pivot.) -/

/-- Number of input rows equal to `(t, i)` (the crosstab cell before
binarisation). -/
def pairCount (pairs : Pairs) (t : Txn) (i : Item) : Nat :=
  (pairs.filter (fun q => q.1 = t ∧ q.2 = i)).length

/-- The binary occurrence matrix entry: `crosstab > 0`. -/
def basketMem (pairs : Pairs) (t : Txn) (i : Item) : Bool :=
  decide (0 < pairCount pairs t i)

/-- Row labels of the matrix: distinct transaction ids, sorted. -/
def txnIds (pairs : Pairs) : List Txn := sortAsc (uniqFirst (pairs.map Prod.fst))

/-- Column labels of the matrix: distinct item ids, sorted. -/
def itemIds (pairs : Pairs) : List Item := sortAsc (uniqFirst (pairs.map Prod.snd))

/-- Embeds `df[transaction_column].nunique()`: number of distinct transactions. -/
def nTxns (pairs : Pairs) : Nat := (uniqFirst (pairs.map Prod.fst)).length

/-- Number of distinct transactions whose basket contains every item of `S`. -/
def containTxns (pairs : Pairs) (S : List Item) : Nat :=
  ((uniqFirst (pairs.map Prod.fst)).filter
    (fun t => S.all (fun i => basketMem pairs t i))).length

/-- Support of an itemset: fraction of distinct transactions containing it. -/
def support (pairs : Pairs) (S : List Item) : ℚ :=
  (containTxns pairs S : ℚ) / (nTxns pairs : ℚ)

/-! ### Frequent itemset miner (`apriori(basket_encoded, min_support=...,
use_colnames=True)`, `main.py` line 434) -/

/-- All size-`n` sublists of `l`, in lexicographic order when `l` is sorted:
the candidate enumeration order of mlxtend's level-wise generation. -/
def combos : Nat → List Item → List (List Item)
  | 0, _ => [[]]
  | _ + 1, [] => []
  | k + 1, x :: xs => (combos k xs).map (fun c => x :: c) ++ combos (k + 1) xs

/-- The frequent-itemset table mlxtend `apriori` returns: every itemset whose
support meets the inclusive `>=` threshold, listed by size level (1, 2, ...)
and lexicographically within a level, each paired with its support. -/
def aprioriRun (pairs : Pairs) (minSupport : ℚ) : List (List Item × ℚ) :=
  (List.range (itemIds pairs).length).flatMap (fun k =>
    ((combos (k + 1) (itemIds pairs)).filter
      (fun S => decide (minSupport ≤ support pairs S))).map
      (fun S => (S, support pairs S)))

/-- mlxtend `apriori` including its input validation: `min_support <= 0`
raises `ValueError("min_support must be a positive number within the
interval (0, 1]")`; no upper-bound check exists, so any `min_support > 1`
simply yields an empty frequent-itemset table. -/
def apriori (pairs : Pairs) (minSupport : ℚ) :
    Except String (List (List Item × ℚ)) :=
  if minSupport ≤ 0 then
    Except.error "min_support must be a positive number within the interval (0, 1]"
  else
    Except.ok (aprioriRun pairs minSupport)

/-! ### Rule generator (`association_rules(frequent_itemsets,
metric="confidence", min_threshold=min_confidence)`, `main.py` line 440) -/

/-- The rule mlxtend builds for one antecedent/consequent split of a frequent
itemset `k` with support `sAC`: consequent = the remaining items,
confidence = `sAC / support(antecedent)`, lift = `confidence /
support(consequent)` (both looked up from the frequent-itemset table, whose
entries equal the support function). -/
def ruleOfSplit (pairs : Pairs) (k : List Item) (sAC : ℚ) (ant : List Item) :
    Rule :=
  let cons := k.filter (fun i => ¬ ant.contains i)
  let sA := support pairs ant
  let sC := support pairs cons
  { antecedents := ant, consequents := cons,
    support := sAC, confidence := sAC / sA, lift := sAC / sA / sC }

/-- mlxtend `association_rules`: for each frequent itemset (table order) and
each proper non-empty antecedent subset (sizes descending from `|k| - 1`
to 1, subsets of one size in the canonical enumeration order), keep the rule
iff its confidence meets the inclusive `>=` threshold. -/
def associationRules (pairs : Pairs) (fis : List (List Item × ℚ))
    (minConf : ℚ) : List Rule :=
  fis.flatMap (fun e =>
    ((List.range (e.1.length - 1)).flatMap (fun d =>
      (combos (e.1.length - 1 - d) e.1).map (ruleOfSplit pairs e.1 e.2))).filter
      (fun r => decide (minConf ≤ r.confidence)))

/-! ### The per-product rule dict (`product_to_rules`, `main.py` lines
444-468): a Python dict, i.e. an insertion-ordered association list. -/

/-- Append a rule to the entry of key `p`, creating the key at the end if
absent (`product_to_rules.setdefault`-style flow of the first pass). -/
def addToGroup (m : List (Item × List Rule)) (p : Item) (r : Rule) :
    List (Item × List Rule) :=
  if m.any (fun e => e.1 = p) then
    m.map (fun e => if e.1 = p then (e.1, e.2 ++ [r]) else e)
  else m ++ [(p, [r])]

/-- First pass (`main.py` lines 447-468): organise the mined rules by
product, keeping only rules whose antecedent is a single item. -/
def minedGrouping (rules : List Rule) : List (Item × List Rule) :=
  rules.foldl (fun m r =>
    match r.antecedents with
    | [a] => addToGroup m a r
    | _ => m) []

/-- Embeds `rules_list`: the dict's values flattened in key-insertion order
(`main.py` lines 539-540). -/
def rulesOf (m : List (Item × List Rule)) : List Rule :=
  m.flatMap Prod.snd

/-- Embeds `product_to_rules.get(product)`. -/
def lookupGroup (m : List (Item × List Rule)) (p : Item) :
    Option (List Rule) :=
  (m.find? (fun e => e.1 = p)).map Prod.snd

/-- Embeds `sum(len(rule["consequents"]) for rule in rules)` — the code's coverage
measure for a product (consequents counted once per rule they appear in). -/
def coverageCount (rs : List Rule) : Nat :=
  (rs.map (fun r => r.consequents.length)).sum

/-! ### Coverage augmenter (`main.py` lines 472-536) -/

/-- Embeds `pandas.Series.value_counts()`: distinct values with their multiplicity,
sorted by count descending. -/
def valueCounts (l : List Item) : List (Item × Nat) :=
  sortDesc (fun ci => ci.2)
    ((uniqFirst l).map (fun i => (i, (l.filter (fun j => j = i)).length)))

/-- Embeds `set(df[df[item_column] == p][transaction_column])` as an ordered list of
distinct transactions: the transactions whose basket contains `p`. -/
def pTxnsOf (pairs : Pairs) (p : Item) : List Txn :=
  uniqFirst ((pairs.filter (fun q => q.2 = p)).map Prod.fst)

/-- The item column of `co_occurring`: one entry per input ROW whose
transaction contains `p` and whose item differs from `p` (duplicate rows
contribute repeatedly, exactly as in the dataframe). -/
def coItemsOf (pairs : Pairs) (p : Item) : List Item :=
  ((pairs.filter (fun q => (pTxnsOf pairs p).contains q.1 ∧ q.2 ≠ p)).map
    Prod.snd)

/-- The synthesized rule for candidate consequent `ci.1` with row count
`ci.2` (`main.py` lines 507-522): support and confidence from the raw row
count, lift from the independence expectation with the `expected > 0`
divide-by-zero guard. -/
def mkAugRule (pairs : Pairs) (p : Item) (ci : Item × Nat) : Rule :=
  let totalTxns : ℚ := (nTxns pairs : ℚ)
  let pTxns : ℚ := ((pTxnsOf pairs p).length : ℚ)
  let supp : ℚ := (ci.2 : ℚ) / totalTxns
  let conf : ℚ := (ci.2 : ℚ) / pTxns
  let cTxns : ℚ := ((pTxnsOf pairs ci.1).length : ℚ)
  let expected : ℚ := (pTxns / totalTxns) * (cTxns / totalTxns)
  { antecedents := [p], consequents := [ci.1], support := supp,
    confidence := conf,
    lift := if 0 < expected then supp / expected else 1 }

/-- Embeds `product_to_rules[p].extend(rs)`. -/
def extendGroup (m : List (Item × List Rule)) (p : Item) (rs : List Rule) :
    List (Item × List Rule) :=
  m.map (fun e => if e.1 = p then (e.1, e.2 ++ rs) else e)

/-- The candidate rules synthesized for product `p` (`main.py` lines
499-522): one rule per `value_counts` entry, skipping candidates already
present as a consequent of `p`'s existing rules. -/
def augNewRules (pairs : Pairs) (m : List (Item × List Rule)) (p : Item) :
    List Rule :=
  ((valueCounts (coItemsOf pairs p)).filter (fun ci =>
      !((lookupGroup m p).isSome &&
        ((lookupGroup m p).getD []).any
          (fun r => r.consequents.contains ci.1)))).map
    (mkAugRule pairs p)

/-- One iteration of the augmentation loop (`main.py` lines 475-536) for
product `p`: if the product's rules cover fewer than 5 consequents (counted
with multiplicity), synthesize rules from co-occurrence counts — skipping
candidates already present as consequents — sort them by lift descending,
and append just enough to reach 5. -/
def augmentStep (pairs : Pairs) (m : List (Item × List Rule)) (p : Item) :
    List (Item × List Rule) :=
  if (lookupGroup m p).isNone ∨
      coverageCount ((lookupGroup m p).getD []) < 5 then
    if (pTxnsOf pairs p).isEmpty then m
    else if (coItemsOf pairs p).isEmpty then m
    else
      let newSorted := sortDesc (fun r => r.lift) (augNewRules pairs m p)
      let m1 := if (lookupGroup m p).isSome then m else m ++ [(p, [])]
      extendGroup m1 p
        (newSorted.take (5 - coverageCount ((lookupGroup m1 p).getD [])))
  else m

/-- The whole second pass: one `augmentStep` per distinct product of the
item column, in first-appearance order (`df[item_column].unique()`). -/
def augmentAll (pairs : Pairs) (m : List (Item × List Rule)) :
    List (Item × List Rule) :=
  (uniqFirst (pairs.map Prod.snd)).foldl (augmentStep pairs) m

/-- The flat rule list after mining, grouping and coverage augmentation but
before the final sort and truncation (`rules_list` at `main.py` line 540). -/
def minedAndAugmented (pairs : Pairs) (ms mc : ℚ) : List Rule :=
  rulesOf (augmentAll pairs
    (minedGrouping (associationRules pairs (aprioriRun pairs ms) mc)))

/-! ### The endpoint (`main.py` lines 383-553) -/

/-- The `/mine-rules` computation: validate and run apriori; with zero
frequent itemsets return the empty list at once (no rule generation, no
augmentation); otherwise generate rules, augment coverage, sort by lift
descending (Python stable sort, lift is the only key) and truncate to
`maxRules` when `maxRules > 0` and the list is longer. -/
def mine (pairs : Pairs) (minSupport minConfidence : ℚ) (maxRules : Int) :
    Except String (List Rule) :=
  match apriori pairs minSupport with
  | Except.error e => Except.error e
  | Except.ok fis =>
    if fis = [] then Except.ok []
    else
      let sorted := sortDesc (fun r => r.lift)
        (minedAndAugmented pairs minSupport minConfidence)
      Except.ok
        (if 0 < maxRules ∧ maxRules < (sorted.length : Int) then
          sorted.take maxRules.toNat
        else sorted)

/-! ## Basic lemmas about the list utilities -/

theorem mem_uniqFirst_foldl {a : Nat} :
    ∀ (l acc : List Nat),
      (a ∈ l.foldl (fun acc x => if acc.contains x then acc else acc ++ [x]) acc
        ↔ a ∈ acc ∨ a ∈ l) := by
  intro l
  induction l with
  | nil => simp
  | cons x xs ih =>
    intro acc
    rw [List.foldl_cons, ih]
    by_cases h : acc.contains x
    · rw [if_pos h]
      have hx : x ∈ acc := by simpa using h
      constructor
      · rintro (h1 | h1)
        · exact Or.inl h1
        · exact Or.inr (List.mem_cons_of_mem x h1)
      · rintro (h1 | h1)
        · exact Or.inl h1
        · rcases List.mem_cons.mp h1 with rfl | h1
          · exact Or.inl hx
          · exact Or.inr h1
    · rw [if_neg h]
      simp only [List.mem_append, List.mem_singleton, List.mem_cons]
      tauto

theorem mem_uniqFirst {a : Nat} {l : List Nat} : a ∈ uniqFirst l ↔ a ∈ l := by
  have := mem_uniqFirst_foldl l ([] : List Nat) (a := a)
  simpa [uniqFirst] using this

theorem nodup_uniqFirst_foldl :
    ∀ (l acc : List Nat), acc.Nodup →
      (l.foldl (fun acc x => if acc.contains x then acc else acc ++ [x])
        acc).Nodup := by
  intro l
  induction l with
  | nil => intro acc h; simpa using h
  | cons x xs ih =>
    intro acc h
    rw [List.foldl_cons]
    by_cases hx : acc.contains x
    · rw [if_pos hx]; exact ih acc h
    · rw [if_neg hx]
      refine ih _ (List.nodup_append.mpr ⟨h, List.nodup_singleton x, ?_⟩)
      intro b hb hbx
      have hbx2 : b = x := by simpa using hbx
      exact (by simpa using hx : x ∉ acc) (hbx2 ▸ hb)

theorem nodup_uniqFirst (l : List Nat) : (uniqFirst l).Nodup :=
  nodup_uniqFirst_foldl l [] List.nodup_nil

theorem perm_insertAsc (x : Nat) :
    ∀ (l : List Nat), List.Perm (insertAsc x l) (x :: l) := by
  intro l
  induction l with
  | nil => simp [insertAsc]
  | cons y ys ih =>
    simp only [insertAsc]
    by_cases h : x ≤ y
    · simp [h]
    · simp only [h, if_false]
      exact ((ih.cons y).trans (List.Perm.swap x y ys))

theorem perm_sortAsc (l : List Nat) : List.Perm (sortAsc l) l := by
  induction l with
  | nil => simp [sortAsc]
  | cons x xs ih => exact (perm_insertAsc x (sortAsc xs)).trans (ih.cons x)

theorem sorted_insertAsc (x : Nat) : ∀ (l : List Nat),
    l.Sorted (· ≤ ·) → (insertAsc x l).Sorted (· ≤ ·) := by
  intro l
  induction l with
  | nil => simp [insertAsc]
  | cons y ys ih =>
    intro hs
    rw [List.sorted_cons] at hs
    simp only [insertAsc]
    by_cases h : x ≤ y
    · rw [if_pos h, List.sorted_cons, List.sorted_cons]
      refine ⟨fun b hb => ?_, hs⟩
      rcases List.mem_cons.mp hb with hb | hb
      · omega
      · exact le_trans h (hs.1 b hb)
    · rw [if_neg h, List.sorted_cons]
      refine ⟨fun b hb => ?_, ih hs.2⟩
      rcases List.mem_cons.mp ((perm_insertAsc x ys).mem_iff.mp hb) with hb | hb
      · omega
      · exact hs.1 b hb

theorem sorted_sortAsc (l : List Nat) : (sortAsc l).Sorted (· ≤ ·) := by
  induction l with
  | nil => simp [sortAsc, List.Sorted]
  | cons x xs ih => exact sorted_insertAsc x _ ih

/-- Two lists with the same members and no duplicates sort to the same list. -/
theorem sortAsc_eq_of_perm {l l' : List Nat} (h : List.Perm l l') :
    sortAsc l = sortAsc l' := by
  have h1 : List.Perm (sortAsc l) (sortAsc l') :=
    ((perm_sortAsc l).trans h).trans (perm_sortAsc l').symm
  exact List.eq_of_perm_of_sorted h1 (sorted_sortAsc l) (sorted_sortAsc l')

theorem perm_insertDesc {α β : Type} [LinearOrder β] (key : α → β) (x : α) :
    ∀ (l : List α), List.Perm (insertDesc key x l) (x :: l) := by
  intro l
  induction l with
  | nil => simp [insertDesc]
  | cons y ys ih =>
    simp only [insertDesc]
    by_cases h : key x < key y
    · simp only [h, if_true]
      exact ((ih.cons y).trans (List.Perm.swap x y ys))
    · simp [h]

theorem perm_sortDesc {α β : Type} [LinearOrder β] (key : α → β) (l : List α) :
    List.Perm (sortDesc key l) l := by
  induction l with
  | nil => simp [sortDesc]
  | cons x xs ih =>
    exact (perm_insertDesc key x (sortDesc key xs)).trans (ih.cons x)

theorem sorted_insertDesc {α β : Type} [LinearOrder β] (key : α → β) (x : α)
    (l : List α) (hs : l.Pairwise (fun a b => key b ≤ key a)) :
    (insertDesc key x l).Pairwise (fun a b => key b ≤ key a) := by
  induction l with
  | nil => simp [insertDesc]
  | cons y ys ih =>
    rw [List.pairwise_cons] at hs
    simp only [insertDesc]
    by_cases h : key x < key y
    · rw [if_pos h, List.pairwise_cons]
      refine ⟨fun b hb => ?_, ih hs.2⟩
      rcases List.mem_cons.mp ((perm_insertDesc key x ys).mem_iff.mp hb)
        with hb | hb
      · subst hb; exact le_of_lt h
      · exact hs.1 b hb
    · rw [if_neg h, List.pairwise_cons]
      push_neg at h
      refine ⟨fun b hb => ?_, List.pairwise_cons.mpr hs⟩
      rcases List.mem_cons.mp hb with hb | hb
      · subst hb; exact h
      · exact le_trans (hs.1 b hb) h

theorem sorted_sortDesc {α β : Type} [LinearOrder β] (key : α → β)
    (l : List α) : (sortDesc key l).Pairwise (fun a b => key b ≤ key a) := by
  induction l with
  | nil => simp [sortDesc]
  | cons x xs ih => exact sorted_insertDesc key x _ ih

/-- Stability of the descending sort: the elements carrying one fixed key
value appear in the sorted output exactly in their original order. -/
theorem filter_insertDesc {α β : Type} [LinearOrder β] (key : α → β)
    (v : β) (x : α) (l : List α) :
    (insertDesc key x l).filter (fun y => decide (key y = v)) =
      (x :: l).filter (fun y => decide (key y = v)) := by
  induction l with
  | nil => simp [insertDesc]
  | cons y ys ih =>
    simp only [insertDesc]
    by_cases h : key x < key y
    · rw [if_pos h]
      by_cases hy : key y = v <;> by_cases hx : key x = v
      · exact absurd (hx.trans hy.symm) (ne_of_lt h)
      · simp [List.filter_cons, hy, hx, ih]
      · simp [List.filter_cons, hy, hx, ih]
      · simp [List.filter_cons, hy, hx, ih]
    · rw [if_neg h]

theorem filter_sortDesc {α β : Type} [LinearOrder β] (key : α → β) (v : β)
    (l : List α) :
    (sortDesc key l).filter (fun y => decide (key y = v)) =
      l.filter (fun y => decide (key y = v)) := by
  induction l with
  | nil => simp [sortDesc]
  | cons x xs ih =>
    calc (sortDesc key (x :: xs)).filter (fun y => decide (key y = v))
        = (insertDesc key x (sortDesc key xs)).filter
            (fun y => decide (key y = v)) := rfl
      _ = (x :: sortDesc key xs).filter (fun y => decide (key y = v)) :=
            filter_insertDesc key v x _
      _ = (x :: xs).filter (fun y => decide (key y = v)) := by
            by_cases hx : key x = v <;> simp [List.filter_cons, hx, ih]

/-- Every member of `combos n l` is a length-`n` sublist of `l`. -/
theorem mem_combos : ∀ {n : Nat} {l c : List Item}, c ∈ combos n l →
    c.Sublist l ∧ c.length = n := by
  intro n
  induction n with
  | zero => intro l c hc; simp [combos] at hc; simp [hc]
  | succ k ih =>
    intro l
    induction l with
    | nil => intro c hc; simp [combos] at hc
    | cons x xs ihl =>
      intro c hc
      simp only [combos, List.mem_append, List.mem_map] at hc
      rcases hc with ⟨d, hd, rfl⟩ | hc
      · obtain ⟨hsub, hlen⟩ := ih hd
        exact ⟨List.Sublist.cons₂ x hsub, by simp [hlen]⟩
      · obtain ⟨hsub, hlen⟩ := ihl hc
        exact ⟨hsub.trans (List.sublist_cons_self x xs), hlen⟩

/-! ## Structure of `mine` -/

theorem mine_eq_error (pairs : Pairs) (ms mc : ℚ) (mr : Int) (h : ms ≤ 0) :
    mine pairs ms mc mr =
      Except.error
        "min_support must be a positive number within the interval (0, 1]" := by
  unfold mine apriori
  rw [if_pos h]

theorem mine_eq_of_pos (pairs : Pairs) (ms mc : ℚ) (mr : Int) (h : ¬ ms ≤ 0) :
    mine pairs ms mc mr =
      if aprioriRun pairs ms = [] then Except.ok []
      else Except.ok
        (if 0 < mr ∧
            mr < ((sortDesc (fun r => r.lift)
              (minedAndAugmented pairs ms mc)).length : Int) then
          (sortDesc (fun r => r.lift)
            (minedAndAugmented pairs ms mc)).take mr.toNat
        else sortDesc (fun r => r.lift) (minedAndAugmented pairs ms mc)) := by
  unfold mine apriori
  rw [if_neg h]

/-! ## Support bounds -/

theorem containTxns_le (pairs : Pairs) (S : List Item) :
    containTxns pairs S ≤ nTxns pairs :=
  List.length_filter_le _ _

theorem nTxns_pos (pairs : Pairs) (h : pairs ≠ []) : 0 < nTxns pairs := by
  rcases pairs with _ | ⟨q, rest⟩
  · exact absurd rfl h
  · refine List.length_pos.mpr (List.ne_nil_of_mem (a := q.1) ?_)
    exact mem_uniqFirst.mpr (by simp)

theorem support_le_one (pairs : Pairs) (S : List Item) (h : pairs ≠ []) :
    support pairs S ≤ 1 := by
  unfold support
  rw [div_le_one (by exact_mod_cast nTxns_pos pairs h)]
  exact_mod_cast containTxns_le pairs S

theorem aprioriRun_eq_nil_of_one_lt (pairs : Pairs) {ms : ℚ} (h : 1 < ms) :
    aprioriRun pairs ms = [] := by
  rcases eq_or_ne pairs [] with rfl | hne
  · rfl
  · unfold aprioriRun
    rw [List.flatMap_eq_nil_iff]
    intro k _
    rw [List.map_eq_nil_iff, List.filter_eq_nil_iff]
    intro S _
    simp only [decide_eq_true_eq, not_le]
    exact lt_of_le_of_lt (support_le_one pairs S hne) h

/-! ## Claim theorems: configuration validation, empty input, empty
frequent-itemset table -/

/-- C2 (amended): `min_support <= 0` is rejected with a configuration error
for every input (the check does not depend on the data), but `min_support`
above 1 is NOT rejected: the endpoint silently returns an empty rule list,
because mlxtend only validates the lower bound and no itemset can reach a
support above 1. -/
theorem minSupport_validation (pairs : Pairs) (ms mc : ℚ) (mr : Int) :
    (ms ≤ 0 → mine pairs ms mc mr =
      Except.error
        "min_support must be a positive number within the interval (0, 1]") ∧
    (1 < ms → mine pairs ms mc mr = Except.ok []) := by
  constructor
  · exact fun h => mine_eq_error pairs ms mc mr h
  · intro h
    rw [mine_eq_of_pos pairs ms mc mr (by push_neg; linarith)]
    rw [if_pos (aprioriRun_eq_nil_of_one_lt pairs h)]

/-- C3: the empty pair list mines to the empty rule list with no error, for
any positive `min_support`. -/
theorem mine_empty_input (ms mc : ℚ) (mr : Int) (h : 0 < ms) :
    mine [] ms mc mr = Except.ok [] := by
  have hnil : aprioriRun [] ms = [] := rfl
  rw [mine_eq_of_pos [] ms mc mr (not_le.mpr h), if_pos hnil]

/-- C9: when apriori finds zero frequent itemsets, the endpoint returns the
empty rule list directly — the rule-generation and coverage-augmentation
passes are skipped entirely. -/
theorem zero_frequent_empty_output (pairs : Pairs) (ms mc : ℚ) (mr : Int)
    (h0 : 0 < ms) (h : aprioriRun pairs ms = []) :
    mine pairs ms mc mr = Except.ok [] := by
  rw [mine_eq_of_pos pairs ms mc mr (not_le.mpr h0), if_pos h]

/-! ## Sortedness of the output -/

theorem pairwise_lift_of_mine_ok {pairs : Pairs} {ms mc : ℚ} {mr : Int}
    {rs : List Rule} (h : mine pairs ms mc mr = Except.ok rs) :
    rs.Pairwise (fun a b => b.lift ≤ a.lift) := by
  by_cases h0 : ms ≤ 0
  · rw [mine_eq_error pairs ms mc mr h0] at h
    cases h
  · rw [mine_eq_of_pos pairs ms mc mr h0] at h
    by_cases hf : aprioriRun pairs ms = []
    · rw [if_pos hf] at h
      cases h
      exact List.Pairwise.nil
    · rw [if_neg hf] at h
      injection h with h2
      subst h2
      by_cases hc : 0 < mr ∧ mr < ((sortDesc (fun r => r.lift)
          (minedAndAugmented pairs ms mc)).length : Int)
      · rw [if_pos hc]
        exact List.Pairwise.sublist (List.take_sublist _ _) (sorted_sortDesc _ _)
      · rw [if_neg hc]
        exact sorted_sortDesc _ _

/-- C5 (amended): the returned rule list is sorted by lift descending, and
ties are broken only by the stable pre-sort order: lift is the single sort
key, so among equal-lift rules the original (insertion) order is preserved
regardless of confidence. -/
theorem sorted_by_lift_stable (pairs : Pairs) (ms mc : ℚ) (mr : Int)
    (rs : List Rule) (h : mine pairs ms mc mr = Except.ok rs) :
    rs.Pairwise (fun a b => b.lift ≤ a.lift) ∧
    ∀ v : ℚ, (sortDesc (fun r => r.lift) (minedAndAugmented pairs ms mc)).filter
        (fun r => decide (r.lift = v)) =
      (minedAndAugmented pairs ms mc).filter (fun r => decide (r.lift = v)) :=
  ⟨pairwise_lift_of_mine_ok h, fun v => filter_sortDesc _ v _⟩

/-- C6: truncation law.  With a positive `max_rules` the endpoint returns
exactly the first `max_rules` elements of the untruncated (lift-sorted)
result — hence at most `max_rules` rules, every kept rule having lift at
least that of every dropped rule; a non-positive `max_rules` applies no
truncation at all. -/
theorem truncation_law (pairs : Pairs) (ms mc : ℚ) (mr : Int) :
    (0 < mr →
      mine pairs ms mc mr =
        Except.map (List.take mr.toNat) (mine pairs ms mc 0) ∧
      (∀ rs, mine pairs ms mc mr = Except.ok rs → rs.length ≤ mr.toNat) ∧
      (∀ rs0, mine pairs ms mc 0 = Except.ok rs0 →
        ∀ r ∈ rs0.take mr.toNat, ∀ s ∈ rs0.drop mr.toNat, s.lift ≤ r.lift)) ∧
    (mr ≤ 0 → mine pairs ms mc mr = mine pairs ms mc 0) := by
  constructor
  · intro hmr
    have heq : mine pairs ms mc mr =
        Except.map (List.take mr.toNat) (mine pairs ms mc 0) := by
      by_cases h0 : ms ≤ 0
      · rw [mine_eq_error pairs ms mc mr h0, mine_eq_error pairs ms mc 0 h0]
        rfl
      · rw [mine_eq_of_pos pairs ms mc mr h0, mine_eq_of_pos pairs ms mc 0 h0]
        by_cases hf : aprioriRun pairs ms = []
        · rw [if_pos hf, if_pos hf]
          simp [Except.map]
        · rw [if_neg hf, if_neg hf]
          rw [if_neg (show ¬ ((0:Int) < 0 ∧ (0:Int) < ((sortDesc
            (fun r => r.lift) (minedAndAugmented pairs ms mc)).length : Int))
            by simp)]
          by_cases hc : 0 < mr ∧ mr < ((sortDesc (fun r => r.lift)
              (minedAndAugmented pairs ms mc)).length : Int)
          · rw [if_pos hc]
            simp [Except.map]
          · rw [if_neg hc]
            have hlen : (sortDesc (fun r => r.lift)
                (minedAndAugmented pairs ms mc)).length ≤ mr.toNat := by
              rcases not_and_or.mp hc with hc1 | hc1
              · exact absurd hmr hc1
              · omega
            simp [Except.map, List.take_of_length_le hlen]
    refine ⟨heq, fun rs h => ?_, fun rs0 h0 r hr s hs => ?_⟩
    · rw [heq] at h
      cases hm0 : mine pairs ms mc 0 with
      | error e => rw [hm0] at h; cases h
      | ok rs0 =>
        rw [hm0] at h
        simp only [Except.map] at h
        have h2 : (rs0.take mr.toNat) = rs := Except.ok.inj h
        rw [← h2]
        exact List.length_take_le _ _
    · have hpw := pairwise_lift_of_mine_ok h0
      have h2 : List.Pairwise (fun a b => b.lift ≤ a.lift)
          (rs0.take mr.toNat ++ rs0.drop mr.toNat) := by
        rw [List.take_append_drop]; exact hpw
      exact (List.pairwise_append.mp h2).2.2 r hr s hs
  · intro hmr
    by_cases h0 : ms ≤ 0
    · rw [mine_eq_error pairs ms mc mr h0, mine_eq_error pairs ms mc 0 h0]
    · rw [mine_eq_of_pos pairs ms mc mr h0, mine_eq_of_pos pairs ms mc 0 h0]
      by_cases hf : aprioriRun pairs ms = []
      · rw [if_pos hf, if_pos hf]
      · rw [if_neg hf, if_neg hf]
        rw [if_neg (fun hc => absurd hc.1 (not_lt.mpr hmr)),
          if_neg (show ¬ ((0:Int) < 0 ∧ (0:Int) < ((sortDesc
            (fun r => r.lift) (minedAndAugmented pairs ms mc)).length : Int))
            by simp)]

/-! ## The per-product dict: lookup lemmas -/

theorem lookupGroup_cons (e : Item × List Rule) (m : List (Item × List Rule))
    (p : Item) :
    lookupGroup (e :: m) p =
      if e.1 = p then some e.2 else lookupGroup m p := by
  by_cases h : e.1 = p
  · rw [if_pos h]
    unfold lookupGroup
    rw [List.find?_cons_of_pos _ (by simpa using h)]
    rfl
  · rw [if_neg h]
    unfold lookupGroup
    rw [List.find?_cons_of_neg _ (by simpa using h)]

theorem extendGroup_cons (e : Item × List Rule) (m : List (Item × List Rule))
    (p : Item) (rs : List Rule) :
    extendGroup (e :: m) p rs =
      (if e.1 = p then (e.1, e.2 ++ rs) else e) :: extendGroup m p rs := by
  unfold extendGroup
  rw [List.map_cons]

theorem lookup_extendGroup (m : List (Item × List Rule)) (p : Item)
    (rs : List Rule) :
    lookupGroup (extendGroup m p rs) p =
      (lookupGroup m p).map (fun l => l ++ rs) := by
  induction m with
  | nil => rfl
  | cons e m ih =>
    by_cases h : e.1 = p <;>
      simp [extendGroup_cons, lookupGroup_cons, h, ih]

theorem lookup_extendGroup_other (m : List (Item × List Rule)) {p q : Item}
    (h : q ≠ p) (rs : List Rule) :
    lookupGroup (extendGroup m q rs) p = lookupGroup m p := by
  induction m with
  | nil => rfl
  | cons e m ih =>
    by_cases he : e.1 = q
    · have hep : ¬ e.1 = p := by rw [he]; exact h
      simp [extendGroup_cons, lookupGroup_cons, he, hep, ih, h, Ne.symm h]
    · by_cases hep : e.1 = p <;>
        simp [extendGroup_cons, lookupGroup_cons, he, hep, ih, h, Ne.symm h]

theorem lookup_append_key (m : List (Item × List Rule)) (p : Item)
    (h : lookupGroup m p = none) :
    lookupGroup (m ++ [(p, [])]) p = some [] := by
  unfold lookupGroup at h ⊢
  rw [List.find?_append]
  rw [Option.map_eq_none'] at h
  rw [h]
  simp [List.find?_cons_of_pos]

theorem lookup_append_other (m : List (Item × List Rule)) {p q : Item}
    (h : q ≠ p) (rs : List Rule) :
    lookupGroup (m ++ [(q, rs)]) p = lookupGroup m p := by
  unfold lookupGroup
  rw [List.find?_append]
  have h2 : List.find? (fun e => decide (e.1 = p)) [(q, rs)] = none := by
    simp [List.find?_cons_of_neg, h]
  rw [h2, Option.or_none]

theorem coverageCount_append (l₁ l₂ : List Rule) :
    coverageCount (l₁ ++ l₂) = coverageCount l₁ + coverageCount l₂ := by
  unfold coverageCount
  rw [List.map_append, List.sum_append]

theorem coverageCount_eq_length (rs : List Rule)
    (h : ∀ r ∈ rs, r.consequents.length = 1) :
    coverageCount rs = rs.length := by
  induction rs with
  | nil => rfl
  | cons r rs ih =>
    unfold coverageCount at ih ⊢
    rw [List.map_cons, List.sum_cons, h r (List.mem_cons_self r rs),
      ih (fun s hs => h s (List.mem_cons_of_mem r hs)), rs.length_cons]
    omega

theorem augNewRules_single_consequent {pairs : Pairs}
    {m : List (Item × List Rule)} {p : Item} {r : Rule}
    (h : r ∈ augNewRules pairs m p) : r.consequents.length = 1 := by
  unfold augNewRules at h
  rcases List.mem_map.mp h with ⟨ci, _, rfl⟩
  rfl

theorem coverage_take_aug (pairs : Pairs) (m : List (Item × List Rule))
    (p : Item) (n : Nat) :
    coverageCount ((sortDesc (fun r => r.lift)
        (augNewRules pairs m p)).take n) =
      min n (augNewRules pairs m p).length := by
  have hs : ∀ r ∈ (sortDesc (fun r => r.lift) (augNewRules pairs m p)).take n,
      r.consequents.length = 1 := fun r hr =>
    augNewRules_single_consequent
      ((perm_sortDesc (fun r => r.lift) _).mem_iff.mp
        ((List.take_sublist _ _).subset hr))
  rw [coverageCount_eq_length _ hs, List.length_take,
    (perm_sortDesc (fun r : Rule => r.lift) (augNewRules pairs m p)).length_eq]

/-! ## The augmentation step: coverage characterization -/

/-- C10: both the augmenter's sufficiency test and its fill-up count measure
coverage as `coverageCount`, the SUM of consequent-list lengths over the
product's rules (a consequent item counted once per rule), not the number
of distinct consequent items:  a product at sum ≥ 5 is left untouched, and
otherwise exactly `min (5 - sum) (number of available candidates)` singleton
rules are appended, so augmentation stops as soon as the sum reaches 5. -/
theorem augment_coverage_multiplicity (pairs : Pairs)
    (m : List (Item × List Rule)) (p : Item) :
    (5 ≤ coverageCount ((lookupGroup m p).getD []) →
      augmentStep pairs m p = m) ∧
    (coverageCount ((lookupGroup m p).getD []) < 5 →
      coverageCount ((lookupGroup (augmentStep pairs m p) p).getD []) =
        coverageCount ((lookupGroup m p).getD []) +
          min (5 - coverageCount ((lookupGroup m p).getD []))
            (augNewRules pairs m p).length) := by
  constructor
  · intro h5
    have hcond : ¬ ((lookupGroup m p).isNone ∨
        coverageCount ((lookupGroup m p).getD []) < 5) := by
      rintro (hn | hlt)
      · rw [Option.isNone_iff_eq_none] at hn
        rw [hn] at h5
        simp [coverageCount] at h5
      · omega
    unfold augmentStep
    rw [if_neg hcond]
  · intro hlt
    have hcond : (lookupGroup m p).isNone ∨
        coverageCount ((lookupGroup m p).getD []) < 5 := Or.inr hlt
    unfold augmentStep
    rw [if_pos hcond]
    by_cases hTe : (pTxnsOf pairs p).isEmpty
    · rw [if_pos hTe]
      have hco : coItemsOf pairs p = [] := by
        unfold coItemsOf
        rw [List.map_eq_nil_iff, List.filter_eq_nil_iff]
        intro q _
        simp [List.isEmpty_iff.mp hTe]
      have hN : augNewRules pairs m p = [] := by
        unfold augNewRules
        rw [hco]
        rfl
      rw [hN]
      simp
    · rw [if_neg hTe]
      by_cases hce : (coItemsOf pairs p).isEmpty
      · rw [if_pos hce]
        have hN : augNewRules pairs m p = [] := by
          unfold augNewRules
          rw [List.isEmpty_iff.mp hce]
          rfl
        rw [hN]
        simp
      · rw [if_neg hce]
        simp only []
        by_cases hS : (lookupGroup m p).isSome
        · rw [if_pos hS]
          rcases Option.isSome_iff_exists.mp hS with ⟨old, hold⟩
          rw [lookup_extendGroup, hold]
          simp only [Option.map_some', Option.getD_some]
          rw [coverageCount_append, coverage_take_aug]
        · rw [if_neg hS]
          have hnone : lookupGroup m p = none :=
            Option.not_isSome_iff_eq_none.mp hS
          rw [lookup_extendGroup, lookup_append_key m p hnone, hnone]
          simp only [Option.map_some', Option.getD_some, Option.getD_none]
          rw [coverageCount_append, coverage_take_aug]

/-! ## Which rules can appear in the final list -/

theorem mem_rulesOf {m : List (Item × List Rule)} {r : Rule} :
    r ∈ rulesOf m ↔ ∃ e ∈ m, r ∈ e.2 := by
  unfold rulesOf
  exact List.mem_flatMap

theorem mem_rulesOf_extendGroup {m : List (Item × List Rule)} {p : Item}
    {rs : List Rule} {r : Rule} (h : r ∈ rulesOf (extendGroup m p rs)) :
    r ∈ rulesOf m ∨ r ∈ rs := by
  rcases mem_rulesOf.mp h with ⟨e, he, hr⟩
  rcases List.mem_map.mp he with ⟨e0, he0, rfl⟩
  by_cases hp : e0.1 = p
  · rw [if_pos hp] at hr
    rcases List.mem_append.mp hr with hr | hr
    · exact Or.inl (mem_rulesOf.mpr ⟨e0, he0, hr⟩)
    · exact Or.inr hr
  · rw [if_neg hp] at hr
    exact Or.inl (mem_rulesOf.mpr ⟨e0, he0, hr⟩)

theorem mem_rulesOf_append_key {m : List (Item × List Rule)} {p : Item}
    {r : Rule} (h : r ∈ rulesOf (m ++ [(p, [])])) : r ∈ rulesOf m := by
  rcases mem_rulesOf.mp h with ⟨e, he, hr⟩
  rcases List.mem_append.mp he with he | he
  · exact mem_rulesOf.mpr ⟨e, he, hr⟩
  · rcases List.mem_singleton.mp he with rfl
    cases hr

theorem mem_augNewRules {pairs : Pairs} {m : List (Item × List Rule)}
    {p : Item} {r : Rule} (h : r ∈ augNewRules pairs m p) :
    ∃ ci ∈ valueCounts (coItemsOf pairs p), r = mkAugRule pairs p ci := by
  unfold augNewRules at h
  rcases List.mem_map.mp h with ⟨ci, hci, rfl⟩
  exact ⟨ci, List.mem_of_mem_filter hci, rfl⟩

theorem mem_augmentStep {pairs : Pairs} {m : List (Item × List Rule)}
    {p : Item} {r : Rule} (h : r ∈ rulesOf (augmentStep pairs m p)) :
    r ∈ rulesOf m ∨ r ∈ augNewRules pairs m p := by
  unfold augmentStep at h
  by_cases hcond : (lookupGroup m p).isNone ∨
      coverageCount ((lookupGroup m p).getD []) < 5
  · rw [if_pos hcond] at h
    by_cases hTe : (pTxnsOf pairs p).isEmpty
    · rw [if_pos hTe] at h
      exact Or.inl h
    · rw [if_neg hTe] at h
      by_cases hce : (coItemsOf pairs p).isEmpty
      · rw [if_pos hce] at h
        exact Or.inl h
      · rw [if_neg hce] at h
        simp only [] at h
        rcases mem_rulesOf_extendGroup h with h2 | h2
        · by_cases hS : (lookupGroup m p).isSome
          · rw [if_pos hS] at h2
            exact Or.inl h2
          · rw [if_neg hS] at h2
            exact Or.inl (mem_rulesOf_append_key h2)
        · have h3 := (List.take_sublist _ _).subset h2
          exact Or.inr ((perm_sortDesc (fun r : Rule => r.lift)
            (augNewRules pairs m p)).mem_iff.mp h3)
  · rw [if_neg hcond] at h
    exact Or.inl h

theorem mem_foldl_augment {pairs : Pairs} :
    ∀ (ps : List Item) (m : List (Item × List Rule)) (r : Rule),
      r ∈ rulesOf (ps.foldl (augmentStep pairs) m) →
      r ∈ rulesOf m ∨ ∃ p ∈ ps, ∃ ci ∈ valueCounts (coItemsOf pairs p),
        r = mkAugRule pairs p ci := by
  intro ps
  induction ps with
  | nil => intro m r h; exact Or.inl h
  | cons p ps ih =>
    intro m r h
    rw [List.foldl_cons] at h
    rcases ih (augmentStep pairs m p) r h with h2 | h2
    · rcases mem_augmentStep h2 with h3 | h3
      · exact Or.inl h3
      · rcases mem_augNewRules h3 with ⟨ci, hci, rfl⟩
        exact Or.inr ⟨p, List.mem_cons_self p ps, ci, hci, rfl⟩
    · rcases h2 with ⟨q, hq, ci, hci, rfl⟩
      exact Or.inr ⟨q, List.mem_cons_of_mem p hq, ci, hci, rfl⟩

theorem mem_addToGroup {m : List (Item × List Rule)} {p : Item} {s r : Rule}
    (h : r ∈ rulesOf (addToGroup m p s)) : r ∈ rulesOf m ∨ r = s := by
  unfold addToGroup at h
  by_cases hany : m.any (fun e => e.1 = p)
  · rw [if_pos hany] at h
    rcases mem_rulesOf.mp h with ⟨e, he, hr⟩
    rcases List.mem_map.mp he with ⟨e0, he0, rfl⟩
    by_cases hp : e0.1 = p
    · rw [if_pos hp] at hr
      rcases List.mem_append.mp hr with hr | hr
      · exact Or.inl (mem_rulesOf.mpr ⟨e0, he0, hr⟩)
      · exact Or.inr (List.mem_singleton.mp hr)
    · rw [if_neg hp] at hr
      exact Or.inl (mem_rulesOf.mpr ⟨e0, he0, hr⟩)
  · rw [if_neg hany] at h
    rcases mem_rulesOf.mp h with ⟨e, he, hr⟩
    rcases List.mem_append.mp he with he | he
    · exact Or.inl (mem_rulesOf.mpr ⟨e, he, hr⟩)
    · rcases List.mem_singleton.mp he with rfl
      exact Or.inr (List.mem_singleton.mp hr)

theorem mem_minedGrouping_foldl :
    ∀ (rules : List Rule) (m : List (Item × List Rule)) (r : Rule),
      r ∈ rulesOf (rules.foldl (fun m r =>
        match r.antecedents with
        | [a] => addToGroup m a r
        | _ => m) m) →
      r ∈ rulesOf m ∨ (r ∈ rules ∧ ∃ a, r.antecedents = [a]) := by
  intro rules
  induction rules with
  | nil => intro m r h; exact Or.inl h
  | cons s rules ih =>
    intro m r h
    rw [List.foldl_cons] at h
    rcases ih _ r h with h2 | h2
    · rcases hs : s.antecedents with _ | ⟨a, _ | _⟩ <;> rw [hs] at h2
      · exact Or.inl h2
      · rcases mem_addToGroup h2 with h3 | rfl
        · exact Or.inl h3
        · exact Or.inr ⟨List.mem_cons_self r rules, a, hs⟩
      · exact Or.inl h2
    · exact Or.inr ⟨List.mem_cons_of_mem s h2.1, h2.2⟩

/-- Any rule of the post-augmentation list is either a kept mined rule
(single-item antecedent, produced by `associationRules`) or a synthesized
rule `mkAugRule` for some product and some `value_counts` candidate. -/
theorem mem_minedAndAugmented {pairs : Pairs} {ms mc : ℚ} {r : Rule}
    (h : r ∈ minedAndAugmented pairs ms mc) :
    (r ∈ associationRules pairs (aprioriRun pairs ms) mc ∧
      ∃ a, r.antecedents = [a]) ∨
    (∃ p ci, ci ∈ valueCounts (coItemsOf pairs p) ∧
      r = mkAugRule pairs p ci) := by
  unfold minedAndAugmented augmentAll at h
  rcases mem_foldl_augment _ _ r h with h2 | ⟨p, _, ci, hci, rfl⟩
  · unfold minedGrouping at h2
    rcases mem_minedGrouping_foldl _ _ r h2 with h3 | h3
    · simp [rulesOf] at h3
    · exact Or.inl ⟨h3.1, h3.2⟩
  · exact Or.inr ⟨p, ci, hci, rfl⟩

theorem mem_of_mine_ok {pairs : Pairs} {ms mc : ℚ} {mr : Int}
    {rs : List Rule} {r : Rule} (h : mine pairs ms mc mr = Except.ok rs)
    (hr : r ∈ rs) : r ∈ minedAndAugmented pairs ms mc := by
  by_cases h0 : ms ≤ 0
  · rw [mine_eq_error pairs ms mc mr h0] at h
    cases h
  · rw [mine_eq_of_pos pairs ms mc mr h0] at h
    by_cases hf : aprioriRun pairs ms = []
    · rw [if_pos hf] at h
      cases h
      cases hr
    · rw [if_neg hf] at h
      injection h with h2
      subst h2
      by_cases hc : 0 < mr ∧ mr < ((sortDesc (fun r => r.lift)
          (minedAndAugmented pairs ms mc)).length : Int)
      · rw [if_pos hc] at hr
        exact (perm_sortDesc (fun r : Rule => r.lift) _).mem_iff.mp
          ((List.take_sublist _ _).subset hr)
      · rw [if_neg hc] at hr
        exact (perm_sortDesc (fun r : Rule => r.lift) _).mem_iff.mp hr

/-- C8: every rule in the returned list has an antecedent of exactly one
item — multi-item antecedents are never emitted. -/
theorem single_item_antecedent (pairs : Pairs) (ms mc : ℚ) (mr : Int)
    (rs : List Rule) (h : mine pairs ms mc mr = Except.ok rs) :
    ∀ r ∈ rs, r.antecedents.length = 1 := by
  intro r hr
  rcases mem_minedAndAugmented (mem_of_mine_ok h hr) with ⟨_, a, ha⟩ | ⟨p, ci, _, rfl⟩
  · rw [ha]
    rfl
  · rfl

/-! ## Basket membership facts -/

theorem pairCount_pos {pairs : Pairs} {t : Txn} {i : Item} :
    0 < pairCount pairs t i ↔ (t, i) ∈ pairs := by
  unfold pairCount
  rw [List.length_pos_iff_exists_mem]
  constructor
  · rintro ⟨⟨a, b⟩, hq⟩
    have h2 := List.mem_filter.mp hq
    have h3 : a = t ∧ b = i := by simpa using h2.2
    rcases h3 with ⟨rfl, rfl⟩
    exact h2.1
  · intro h
    exact ⟨(t, i), List.mem_filter.mpr ⟨h, by simp⟩⟩

theorem basketMem_iff {pairs : Pairs} {t : Txn} {i : Item} :
    basketMem pairs t i = true ↔ (t, i) ∈ pairs := by
  unfold basketMem
  rw [decide_eq_true_eq]
  exact pairCount_pos

theorem mem_pTxnsOf {pairs : Pairs} {p : Item} {t : Txn} :
    t ∈ pTxnsOf pairs p ↔ (t, p) ∈ pairs := by
  unfold pTxnsOf
  rw [mem_uniqFirst, List.mem_map]
  constructor
  · rintro ⟨⟨a, b⟩, hq, rfl⟩
    have h2 := List.mem_filter.mp hq
    have h3 : b = p := by simpa using h2.2
    subst h3
    exact h2.1
  · intro h
    exact ⟨(t, p), List.mem_filter.mpr ⟨h, by simp⟩, rfl⟩

theorem ne_of_mem_coItemsOf {pairs : Pairs} {p c : Item}
    (h : c ∈ coItemsOf pairs p) : c ≠ p := by
  unfold coItemsOf at h
  rcases List.mem_map.mp h with ⟨q, hq, rfl⟩
  have h2 := (List.mem_filter.mp hq).2
  simp only [decide_eq_true_eq] at h2
  exact h2.2

theorem pairs_facts_of_mem_coItemsOf {pairs : Pairs} {p c : Item}
    (h : c ∈ coItemsOf pairs p) : pTxnsOf pairs p ≠ [] ∧ pairs ≠ [] := by
  unfold coItemsOf at h
  rcases List.mem_map.mp h with ⟨q, hq, rfl⟩
  have h2 := List.mem_filter.mp hq
  have h3 := h2.2
  simp only [decide_eq_true_eq] at h3
  have h4 : q.1 ∈ pTxnsOf pairs p := by
    have := h3.1
    simpa [List.contains] using this
  exact ⟨List.ne_nil_of_mem h4, List.ne_nil_of_mem h2.1⟩

/-- Support only depends on the member set of the itemset. -/
theorem support_congr {pairs : Pairs} {S T : List Item}
    (h : ∀ i, i ∈ S ↔ i ∈ T) : support pairs S = support pairs T := by
  unfold support containTxns
  have hall : ∀ t, (S.all (fun i => basketMem pairs t i)) =
      (T.all (fun i => basketMem pairs t i)) := by
    intro t
    rw [Bool.eq_iff_iff, List.all_eq_true, List.all_eq_true]
    constructor
    · intro hS i hi
      exact hS i ((h i).mpr hi)
    · intro hT i hi
      exact hT i ((h i).mp hi)
  rw [List.filter_congr (fun t _ => hall t)]

/-! ## Characterization of mined rules -/

theorem mem_aprioriRun_support {pairs : Pairs} {ms : ℚ} {e : List Item × ℚ}
    (h : e ∈ aprioriRun pairs ms) : e.2 = support pairs e.1 := by
  unfold aprioriRun at h
  rcases List.mem_flatMap.mp h with ⟨k, _, h2⟩
  rcases List.mem_map.mp h2 with ⟨S, _, heq⟩
  rw [← heq]

theorem mem_associationRules {pairs : Pairs} {fis : List (List Item × ℚ)}
    {mc : ℚ} {r : Rule} (h : r ∈ associationRules pairs fis mc) :
    ∃ e ∈ fis, ∃ ant, ant.Sublist e.1 ∧ r = ruleOfSplit pairs e.1 e.2 ant := by
  unfold associationRules at h
  rcases List.mem_flatMap.mp h with ⟨e, he, hr⟩
  have hr2 := List.mem_of_mem_filter hr
  rcases List.mem_flatMap.mp hr2 with ⟨d, _, hr3⟩
  rcases List.mem_map.mp hr3 with ⟨ant, hant, heq⟩
  exact ⟨e, he, ant, (mem_combos hant).1, heq.symm⟩

theorem ruleOfSplit_disjoint (pairs : Pairs) (k : List Item) (sAC : ℚ)
    (ant : List Item) :
    (ruleOfSplit pairs k sAC ant).antecedents.Disjoint
      (ruleOfSplit pairs k sAC ant).consequents := by
  intro a ha hc
  have h2 := (List.mem_filter.mp hc).2
  simp only [decide_eq_true_eq] at h2
  exact h2 (by simpa [List.contains] using ha)

theorem ruleOfSplit_confidence (pairs : Pairs) (k : List Item)
    (ant : List Item) (hsub : ant.Sublist k) :
    (ruleOfSplit pairs k (support pairs k) ant).confidence =
      support pairs ((ruleOfSplit pairs k (support pairs k) ant).antecedents ++
          (ruleOfSplit pairs k (support pairs k) ant).consequents) /
        support pairs (ruleOfSplit pairs k (support pairs k) ant).antecedents := by
  show support pairs k / support pairs ant =
    support pairs (ant ++ k.filter (fun i => ¬ ant.contains i)) /
      support pairs ant
  have hmem : ∀ i, i ∈ k ↔
      i ∈ ant ++ k.filter (fun i => ¬ ant.contains i) := by
    intro i
    rw [List.mem_append, List.mem_filter]
    constructor
    · intro hi
      by_cases ha : i ∈ ant
      · exact Or.inl ha
      · refine Or.inr ⟨hi, ?_⟩
        simpa [List.contains] using ha
    · rintro (ha | ⟨hi, _⟩)
      · exact hsub.subset ha
      · exact hi
  rw [support_congr hmem]

/-! ## Characterization of augmented rules -/

theorem mem_valueCounts {l : List Item} {ci : Item × Nat}
    (h : ci ∈ valueCounts l) :
    ci.1 ∈ l ∧ ci.2 = (l.filter (fun j => j = ci.1)).length := by
  unfold valueCounts at h
  have h2 := (perm_sortDesc (fun ci : Item × Nat => ci.2) _).mem_iff.mp h
  rcases List.mem_map.mp h2 with ⟨i, hi, heq⟩
  rw [← heq]
  exact ⟨mem_uniqFirst.mp hi, rfl⟩

theorem nodup_subset_length_le {l m : List Nat} (hn : l.Nodup) (hs : l ⊆ m) :
    l.length ≤ m.length := by
  have h1 : l.toFinset.card = l.length := List.toFinset_card_of_nodup hn
  have h2 : l.toFinset ⊆ m.toFinset := fun a ha => by
    rw [List.mem_toFinset] at ha ⊢
    exact hs ha
  calc l.length = l.toFinset.card := h1.symm
  _ ≤ m.toFinset.card := Finset.card_le_card h2
  _ ≤ m.length := List.toFinset_card_le m

/-- Generic counting step: a duplicate-free row list filtered by any
predicate equivalent to "the row's item is `c` and the row's transaction
contains `p`" has as many rows as there are distinct transactions
containing both `p` and `c`. -/
theorem length_filter_eq_containTxns {pairs : Pairs} (hnd : pairs.Nodup)
    {p c : Item} {f : Txn × Item → Bool}
    (hf : ∀ q : Txn × Item,
      f q = true ↔ (q.2 = c ∧ basketMem pairs q.1 p = true)) :
    (pairs.filter f).length = containTxns pairs [p, c] := by
  have hmemL : ∀ q : Txn × Item, q ∈ pairs.filter f ↔
      q ∈ pairs ∧ q.2 = c ∧ basketMem pairs q.1 p = true := by
    intro q
    rw [List.mem_filter, hf q]
  have hLnodup : (pairs.filter f).Nodup := List.Nodup.filter _ hnd
  have hmapNodup : ((pairs.filter f).map Prod.fst).Nodup := by
    refine List.Nodup.map_on ?_ hLnodup
    intro x hx y hy hxy
    have hx2 := (hmemL x).mp hx
    have hy2 := (hmemL y).mp hy
    rcases x with ⟨x1, x2⟩
    rcases y with ⟨y1, y2⟩
    simp only at hxy
    rw [hxy] at hx2 ⊢
    rw [show x2 = c from hx2.2.1, show y2 = c from hy2.2.1]
  have hperm : List.Perm ((pairs.filter f).map Prod.fst)
      ((uniqFirst (pairs.map Prod.fst)).filter
        (fun t => [p, c].all (fun i => basketMem pairs t i))) := by
    rw [List.perm_ext_iff_of_nodup hmapNodup
      (List.Nodup.filter _ (nodup_uniqFirst _))]
    intro t
    rw [List.mem_map, List.mem_filter, mem_uniqFirst, List.mem_map]
    constructor
    · rintro ⟨q, hq, rfl⟩
      have h2 := (hmemL q).mp hq
      refine ⟨⟨q, h2.1, rfl⟩, ?_⟩
      have hcmem : (q.1, c) ∈ pairs := h2.2.1 ▸ h2.1
      simp [List.all_cons, basketMem_iff, h2.2.2, hcmem]
    · rintro ⟨⟨q, hq, rfl⟩, hall⟩
      simp only [List.all_cons, List.all_nil, Bool.and_eq_true,
        Bool.and_true] at hall
      have hc2 : (q.1, c) ∈ pairs := basketMem_iff.mp hall.2
      exact ⟨(q.1, c), (hmemL (q.1, c)).mpr ⟨hc2, rfl, hall.1⟩, rfl⟩
  unfold containTxns
  calc (pairs.filter f).length
      = ((pairs.filter f).map Prod.fst).length := (List.length_map _ _).symm
  _ = _ := hperm.length_eq

/-- The raw row count of candidate `c` in the co-occurrence frame equals,
when the input holds no duplicate rows, the number of distinct transactions
containing both `p` and `c`. -/
theorem count_coItems_eq_containTxns {pairs : Pairs} (hnd : pairs.Nodup)
    (p c : Item) (hc : c ≠ p) :
    ((coItemsOf pairs p).filter (fun j => j = c)).length =
      containTxns pairs [p, c] := by
  unfold coItemsOf
  rw [List.filter_map, List.length_map, List.filter_filter]
  refine length_filter_eq_containTxns hnd ?_
  intro q
  simp only [Function.comp, Bool.and_eq_true, decide_eq_true_eq]
  constructor
  · rintro ⟨h1, h2, _⟩
    refine ⟨h1, ?_⟩
    have h4 : q.1 ∈ pTxnsOf pairs p := by simpa [List.contains] using h2
    exact basketMem_iff.mpr (mem_pTxnsOf.mp h4)
  · rintro ⟨h1, h2⟩
    have h3 : q.1 ∈ pTxnsOf pairs p := mem_pTxnsOf.mpr (basketMem_iff.mp h2)
    refine ⟨h1, ?_, ?_⟩
    · simpa [List.contains] using h3
    · rw [h1]
      exact hc

theorem pTxnsOf_length_eq (pairs : Pairs) (p : Item) :
    (pTxnsOf pairs p).length = containTxns pairs [p] := by
  apply List.Perm.length_eq
  have h1 : (pTxnsOf pairs p).Nodup := nodup_uniqFirst _
  have h2 : ((uniqFirst (pairs.map Prod.fst)).filter
      (fun t => [p].all (fun i => basketMem pairs t i))).Nodup :=
    List.Nodup.filter _ (nodup_uniqFirst _)
  rw [List.perm_ext_iff_of_nodup h1 h2]
  intro t
  rw [mem_pTxnsOf, List.mem_filter, mem_uniqFirst]
  constructor
  · intro h
    refine ⟨List.mem_map.mpr ⟨(t, p), h, rfl⟩, ?_⟩
    simp [List.all_cons, basketMem_iff, h]
  · rintro ⟨_, hall⟩
    simp only [List.all_cons, List.all_nil, Bool.and_true] at hall
    exact basketMem_iff.mp hall

theorem mkAugRule_confidence {pairs : Pairs} (hnd : pairs.Nodup) {p : Item}
    {ci : Item × Nat} (hci : ci ∈ valueCounts (coItemsOf pairs p)) :
    (mkAugRule pairs p ci).confidence =
      support pairs ((mkAugRule pairs p ci).antecedents ++
          (mkAugRule pairs p ci).consequents) /
        support pairs (mkAugRule pairs p ci).antecedents := by
  obtain ⟨hmem, hcnt⟩ := mem_valueCounts hci
  have hc : ci.1 ≠ p := ne_of_mem_coItemsOf hmem
  obtain ⟨hTp, hpairs⟩ := pairs_facts_of_mem_coItemsOf hmem
  have hn : ((nTxns pairs : ℚ)) ≠ 0 := by
    exact_mod_cast Nat.pos_iff_ne_zero.mp (nTxns_pos pairs hpairs)
  have hB : ((containTxns pairs [p] : ℚ)) ≠ 0 := by
    have : 0 < (pTxnsOf pairs p).length := List.length_pos.mpr hTp
    rw [pTxnsOf_length_eq] at this
    exact_mod_cast Nat.pos_iff_ne_zero.mp this
  show (ci.2 : ℚ) / ((pTxnsOf pairs p).length : ℚ) =
    support pairs ([p] ++ [ci.1]) / support pairs [p]
  rw [hcnt, count_coItems_eq_containTxns hnd p ci.1 hc, pTxnsOf_length_eq]
  show ((containTxns pairs [p, ci.1] : ℚ)) / (containTxns pairs [p] : ℚ) =
    support pairs [p, ci.1] / support pairs [p]
  unfold support
  field_simp

/-- C4 (amended): for every returned rule the antecedent and consequent item
lists are disjoint — unconditionally — and, PROVIDED the input rows are
duplicate-free, the rule's confidence equals
support(antecedent ∪ consequent) / support(antecedent) exactly (hence within
the 1e-9 tolerance), where support is the fraction of distinct transactions
containing the itemset.  (With duplicate rows the synthesized rules
overcount: see the counterexample.) -/
theorem rule_validity (pairs : Pairs) (ms mc : ℚ) (mr : Int) (rs : List Rule)
    (h : mine pairs ms mc mr = Except.ok rs) :
    ∀ r ∈ rs, r.antecedents.Disjoint r.consequents ∧
      (pairs.Nodup →
        |r.confidence - support pairs (r.antecedents ++ r.consequents) /
          support pairs r.antecedents| ≤ 1 / 1000000000) := by
  intro r hr
  have hchar := mem_minedAndAugmented (mem_of_mine_ok h hr)
  constructor
  · rcases hchar with ⟨hmined, _⟩ | ⟨p, ci, hci, rfl⟩
    · rcases mem_associationRules hmined with ⟨e, he, ant, hsub, rfl⟩
      exact ruleOfSplit_disjoint pairs e.1 e.2 ant
    · intro a ha hc
      have ha2 : a = p := List.mem_singleton.mp ha
      have hc2 : a = ci.1 := List.mem_singleton.mp hc
      exact ne_of_mem_coItemsOf (mem_valueCounts hci).1 (hc2 ▸ ha2)
  · intro hnd
    have heq : r.confidence =
        support pairs (r.antecedents ++ r.consequents) /
          support pairs r.antecedents := by
      rcases hchar with ⟨hmined, _⟩ | ⟨p, ci, hci, rfl⟩
      · rcases mem_associationRules hmined with ⟨e, he, ant, hsub, rfl⟩
        have hsupp := mem_aprioriRun_support he
        rw [hsupp]
        exact ruleOfSplit_confidence pairs e.1 ant hsub
      · exact mkAugRule_confidence hnd hci
    rw [heq, sub_self, abs_zero]
    norm_num

/-! ## Duplicate rows do not change the matrix or the frequent itemsets -/

theorem basketMem_dup (pairs : Pairs) (q : Txn × Item) (hq : q ∈ pairs) :
    ∀ t i, basketMem (q :: pairs) t i = basketMem pairs t i := by
  intro t i
  unfold basketMem
  rw [Bool.eq_iff_iff, decide_eq_true_eq, decide_eq_true_eq]
  unfold pairCount
  by_cases hm : q.1 = t ∧ q.2 = i
  · rw [List.filter_cons_of_pos (by simpa using hm)]
    have hmem : q ∈ pairs.filter (fun q2 => decide (q2.1 = t ∧ q2.2 = i)) :=
      List.mem_filter.mpr ⟨hq, by simpa using hm⟩
    have hpos : 0 <
        (pairs.filter (fun q2 => decide (q2.1 = t ∧ q2.2 = i))).length :=
      List.length_pos.mpr (List.ne_nil_of_mem hmem)
    exact iff_of_true (Nat.succ_pos _) hpos
  · rw [List.filter_cons_of_neg (by simpa using hm)]

theorem uniqFirst_cons_perm {l : List Nat} {x : Nat} (hx : x ∈ l) :
    List.Perm (uniqFirst (x :: l)) (uniqFirst l) := by
  rw [List.perm_ext_iff_of_nodup (nodup_uniqFirst _) (nodup_uniqFirst _)]
  intro a
  rw [mem_uniqFirst, mem_uniqFirst, List.mem_cons]
  constructor
  · rintro (rfl | h)
    · exact hx
    · exact h
  · exact Or.inr

theorem support_dup (pairs : Pairs) (q : Txn × Item) (hq : q ∈ pairs)
    (S : List Item) : support (q :: pairs) S = support pairs S := by
  have hfun : basketMem (q :: pairs) = basketMem pairs :=
    funext fun t => funext fun i => basketMem_dup pairs q hq t i
  have hperm : List.Perm (uniqFirst ((q :: pairs).map Prod.fst))
      (uniqFirst (pairs.map Prod.fst)) := by
    rw [List.map_cons]
    exact uniqFirst_cons_perm (List.mem_map.mpr ⟨q, hq, rfl⟩)
  unfold support containTxns nTxns
  rw [hfun, (hperm.filter _).length_eq, hperm.length_eq]

/-- C7: a duplicate (transaction, item) row collapses in the binary basket
encoding: prepending a row already present leaves every matrix entry, the
sorted row and column labels, and the whole frequent-itemset table (itemsets
and supports) unchanged. -/
theorem duplicate_row_invariant (pairs : Pairs) (q : Txn × Item) (ms : ℚ)
    (hq : q ∈ pairs) :
    (∀ t i, basketMem (q :: pairs) t i = basketMem pairs t i) ∧
    txnIds (q :: pairs) = txnIds pairs ∧
    itemIds (q :: pairs) = itemIds pairs ∧
    aprioriRun (q :: pairs) ms = aprioriRun pairs ms := by
  have hitems : itemIds (q :: pairs) = itemIds pairs := by
    unfold itemIds
    rw [List.map_cons]
    exact sortAsc_eq_of_perm (uniqFirst_cons_perm
      (List.mem_map.mpr ⟨q, hq, rfl⟩))
  refine ⟨basketMem_dup pairs q hq, ?_, hitems, ?_⟩
  · unfold txnIds
    rw [List.map_cons]
    exact sortAsc_eq_of_perm (uniqFirst_cons_perm
      (List.mem_map.mpr ⟨q, hq, rfl⟩))
  · have hs : support (q :: pairs) = support pairs :=
      funext (support_dup pairs q hq)
    unfold aprioriRun
    rw [hitems, hs]

/-! ## Coverage guarantee machinery: dict invariants -/

/-- Every rule stored under a key has exactly that key as its antecedent. -/
def KeyedAnte (m : List (Item × List Rule)) : Prop :=
  ∀ e ∈ m, ∀ r ∈ e.2, r.antecedents = [e.1]

/-- Dict keys are distinct (as in a Python dict). -/
def KeysNodup (m : List (Item × List Rule)) : Prop :=
  (m.map Prod.fst).Nodup

theorem keyedAnte_addToGroup {m : List (Item × List Rule)} {p : Item}
    {s : Rule} (hA : KeyedAnte m) (hs : s.antecedents = [p]) :
    KeyedAnte (addToGroup m p s) := by
  unfold addToGroup
  by_cases hany : m.any (fun e => e.1 = p)
  · rw [if_pos hany]
    intro e he r hr
    rcases List.mem_map.mp he with ⟨e0, he0, rfl⟩
    by_cases hp : e0.1 = p
    · simp only [if_pos hp] at hr ⊢
      rcases List.mem_append.mp hr with hr | hr
      · exact hA e0 he0 r hr
      · rw [List.mem_singleton.mp hr, hs, hp]
    · simp only [if_neg hp] at hr ⊢
      exact hA e0 he0 r hr
  · rw [if_neg hany]
    intro e he r hr
    rcases List.mem_append.mp he with he | he
    · exact hA e he r hr
    · rcases List.mem_singleton.mp he with rfl
      rw [List.mem_singleton.mp hr, hs]

theorem keysNodup_addToGroup {m : List (Item × List Rule)} {p : Item}
    {s : Rule} (hK : KeysNodup m) : KeysNodup (addToGroup m p s) := by
  unfold addToGroup
  by_cases hany : m.any (fun e => e.1 = p)
  · rw [if_pos hany]
    unfold KeysNodup
    have hmap : (m.map (fun e =>
        if e.1 = p then (e.1, e.2 ++ [s]) else e)).map Prod.fst =
        m.map Prod.fst := by
      rw [List.map_map]
      apply List.map_congr_left
      intro e _
      by_cases hp : e.1 = p <;> simp [hp]
    rw [hmap]
    exact hK
  · rw [if_neg hany]
    unfold KeysNodup
    rw [List.map_append, List.nodup_append]
    refine ⟨hK, List.nodup_singleton p, ?_⟩
    intro a ha hap
    have hap2 := List.mem_singleton.mp hap
    rcases List.mem_map.mp ha with ⟨e, he, rfl⟩
    exact hany (List.any_eq_true.mpr ⟨e, he, by simp [hap2]⟩)

theorem keyedAnte_extendGroup {m : List (Item × List Rule)} {p : Item}
    {rs : List Rule} (hA : KeyedAnte m)
    (hrs : ∀ r ∈ rs, r.antecedents = [p]) :
    KeyedAnte (extendGroup m p rs) := by
  intro e he r hr
  rcases List.mem_map.mp he with ⟨e0, he0, rfl⟩
  by_cases hp : e0.1 = p
  · simp only [if_pos hp] at hr ⊢
    rcases List.mem_append.mp hr with hr | hr
    · exact hA e0 he0 r hr
    · rw [hrs r hr, hp]
  · simp only [if_neg hp] at hr ⊢
    exact hA e0 he0 r hr

theorem keysNodup_extendGroup {m : List (Item × List Rule)} {p : Item}
    {rs : List Rule} (hK : KeysNodup m) : KeysNodup (extendGroup m p rs) := by
  unfold KeysNodup extendGroup
  have hmap : (m.map (fun e =>
      if e.1 = p then (e.1, e.2 ++ rs) else e)).map Prod.fst =
      m.map Prod.fst := by
    rw [List.map_map]
    apply List.map_congr_left
    intro e _
    by_cases hp : e.1 = p <;> simp [hp]
  rw [hmap]
  exact hK

theorem keyedAnte_append_key {m : List (Item × List Rule)} {p : Item}
    (hA : KeyedAnte m) : KeyedAnte (m ++ [(p, [])]) := by
  intro e he r hr
  rcases List.mem_append.mp he with he | he
  · exact hA e he r hr
  · rcases List.mem_singleton.mp he with rfl
    cases hr

theorem keysNodup_append_key {m : List (Item × List Rule)} {p : Item}
    (hK : KeysNodup m) (h : lookupGroup m p = none) :
    KeysNodup (m ++ [(p, [])]) := by
  unfold KeysNodup
  rw [List.map_append, List.nodup_append]
  refine ⟨hK, List.nodup_singleton p, ?_⟩
  intro a ha hap
  have hap2 := List.mem_singleton.mp hap
  rcases List.mem_map.mp ha with ⟨e, he, rfl⟩
  unfold lookupGroup at h
  rw [Option.map_eq_none', List.find?_eq_none] at h
  exact (h e he) (by simpa using hap2)

theorem keyedAnte_augmentStep {pairs : Pairs} {m : List (Item × List Rule)}
    {p : Item} (hA : KeyedAnte m) : KeyedAnte (augmentStep pairs m p) := by
  unfold augmentStep
  by_cases hcond : (lookupGroup m p).isNone ∨
      coverageCount ((lookupGroup m p).getD []) < 5
  · rw [if_pos hcond]
    by_cases hTe : (pTxnsOf pairs p).isEmpty
    · rw [if_pos hTe]; exact hA
    · rw [if_neg hTe]
      by_cases hce : (coItemsOf pairs p).isEmpty
      · rw [if_pos hce]; exact hA
      · rw [if_neg hce]
        simp only []
        have hrs : ∀ r ∈ (sortDesc (fun r : Rule => r.lift)
            (augNewRules pairs m p)).take
              (5 - coverageCount ((lookupGroup
                (if (lookupGroup m p).isSome then m else m ++ [(p, [])])
                p).getD [])), r.antecedents = [p] := by
          intro r hr
          have hr2 := (perm_sortDesc (fun r : Rule => r.lift)
            (augNewRules pairs m p)).mem_iff.mp
            ((List.take_sublist _ _).subset hr)
          rcases mem_augNewRules hr2 with ⟨ci, _, rfl⟩
          rfl
        by_cases hS : (lookupGroup m p).isSome
        · rw [if_pos hS] at hrs ⊢
          exact keyedAnte_extendGroup hA hrs
        · rw [if_neg hS] at hrs ⊢
          exact keyedAnte_extendGroup (keyedAnte_append_key hA) hrs
  · rw [if_neg hcond]; exact hA

theorem keysNodup_augmentStep {pairs : Pairs} {m : List (Item × List Rule)}
    {p : Item} (hK : KeysNodup m) : KeysNodup (augmentStep pairs m p) := by
  unfold augmentStep
  by_cases hcond : (lookupGroup m p).isNone ∨
      coverageCount ((lookupGroup m p).getD []) < 5
  · rw [if_pos hcond]
    by_cases hTe : (pTxnsOf pairs p).isEmpty
    · rw [if_pos hTe]; exact hK
    · rw [if_neg hTe]
      by_cases hce : (coItemsOf pairs p).isEmpty
      · rw [if_pos hce]; exact hK
      · rw [if_neg hce]
        simp only []
        by_cases hS : (lookupGroup m p).isSome
        · rw [if_pos hS]
          exact keysNodup_extendGroup hK
        · rw [if_neg hS]
          exact keysNodup_extendGroup (keysNodup_append_key hK
            (Option.not_isSome_iff_eq_none.mp hS))
  · rw [if_neg hcond]; exact hK

theorem keyedAnte_foldl {pairs : Pairs} :
    ∀ (ps : List Item) (m : List (Item × List Rule)), KeyedAnte m →
      KeyedAnte (ps.foldl (augmentStep pairs) m) := by
  intro ps
  induction ps with
  | nil => intro m h; exact h
  | cons q ps ih =>
    intro m h
    rw [List.foldl_cons]
    exact ih _ (keyedAnte_augmentStep h)

theorem keysNodup_foldl {pairs : Pairs} :
    ∀ (ps : List Item) (m : List (Item × List Rule)), KeysNodup m →
      KeysNodup (ps.foldl (augmentStep pairs) m) := by
  intro ps
  induction ps with
  | nil => intro m h; exact h
  | cons q ps ih =>
    intro m h
    rw [List.foldl_cons]
    exact ih _ (keysNodup_augmentStep h)

theorem minedGrouping_inv :
    ∀ (rules : List Rule) (m : List (Item × List Rule)),
      KeyedAnte m → KeysNodup m →
      KeyedAnte (rules.foldl (fun m r =>
        match r.antecedents with
        | [a] => addToGroup m a r
        | _ => m) m) ∧
      KeysNodup (rules.foldl (fun m r =>
        match r.antecedents with
        | [a] => addToGroup m a r
        | _ => m) m) := by
  intro rules
  induction rules with
  | nil => intro m hA hK; exact ⟨hA, hK⟩
  | cons s rules ih =>
    intro m hA hK
    rw [List.foldl_cons]
    rcases hs : s.antecedents with _ | ⟨a, _ | _⟩
    · exact ih m hA hK
    · exact ih _ (keyedAnte_addToGroup hA hs) (keysNodup_addToGroup hK)
    · exact ih m hA hK

/-- With the two dict invariants, filtering the flattened rule list down to
one antecedent picks out exactly that product's bucket. -/
theorem filter_rulesOf_eq_lookup {m : List (Item × List Rule)} {p : Item}
    (hA : KeyedAnte m) (hK : KeysNodup m) :
    (rulesOf m).filter (fun r => decide (r.antecedents = [p])) =
      (lookupGroup m p).getD [] := by
  induction m with
  | nil => rfl
  | cons e m ih =>
    have hA2 : KeyedAnte m := fun e2 he2 => hA e2 (List.mem_cons_of_mem e he2)
    have hK2 : KeysNodup m := by
      unfold KeysNodup at hK ⊢
      rw [List.map_cons] at hK
      exact (List.nodup_cons.mp hK).2
    have hrOf : rulesOf (e :: m) = e.2 ++ rulesOf m := rfl
    rw [hrOf, List.filter_append, lookupGroup_cons]
    by_cases hp : e.1 = p
    · rw [if_pos hp]
      have hfe : e.2.filter (fun r => decide (r.antecedents = [p])) = e.2 :=
        List.filter_eq_self.mpr (fun r hr => by
          rw [hA e (List.mem_cons_self e m) r hr, hp]
          simp)
      have hrest : (rulesOf m).filter
          (fun r => decide (r.antecedents = [p])) = [] := by
        rw [List.filter_eq_nil_iff]
        intro r hr
        rcases mem_rulesOf.mp hr with ⟨e2, he2, hr2⟩
        rw [hA2 e2 he2 r hr2]
        have hne : e2.1 ≠ p := by
          unfold KeysNodup at hK
          rw [List.map_cons, List.nodup_cons] at hK
          intro habs
          refine hK.1 ?_
          rw [hp, ← habs]
          exact List.mem_map.mpr ⟨e2, he2, rfl⟩
        simp [hne]
      rw [hfe, hrest, List.append_nil]
      rfl
    · rw [if_neg hp]
      have hfe : e.2.filter (fun r => decide (r.antecedents = [p])) = [] := by
        rw [List.filter_eq_nil_iff]
        intro r hr
        rw [hA e (List.mem_cons_self e m) r hr]
        simp [hp]
      rw [hfe, List.nil_append]
      exact ih hA2 hK2

theorem augmentStep_lookup_other {pairs : Pairs}
    {m : List (Item × List Rule)} {p q : Item} (h : q ≠ p) :
    lookupGroup (augmentStep pairs m q) p = lookupGroup m p := by
  unfold augmentStep
  by_cases hcond : (lookupGroup m q).isNone ∨
      coverageCount ((lookupGroup m q).getD []) < 5
  · rw [if_pos hcond]
    by_cases hTe : (pTxnsOf pairs q).isEmpty
    · rw [if_pos hTe]
    · rw [if_neg hTe]
      by_cases hce : (coItemsOf pairs q).isEmpty
      · rw [if_pos hce]
      · rw [if_neg hce]
        simp only []
        rw [lookup_extendGroup_other _ h]
        by_cases hS : (lookupGroup m q).isSome
        · rw [if_pos hS]
        · rw [if_neg hS]
          exact lookup_append_other m h []
  · rw [if_neg hcond]

theorem lookup_foldl_not_mem {pairs : Pairs} :
    ∀ (ps : List Item) (m : List (Item × List Rule)) (p : Item), p ∉ ps →
      lookupGroup (ps.foldl (augmentStep pairs) m) p = lookupGroup m p := by
  intro ps
  induction ps with
  | nil => intro m p _; rfl
  | cons q ps ih =>
    intro m p hp
    have hqp : q ≠ p := by
      intro h2
      exact hp (h2 ▸ List.mem_cons_self q ps)
    rw [List.foldl_cons, ih _ p (fun h2 => hp (List.mem_cons_of_mem q h2)),
      augmentStep_lookup_other hqp]

/-! ## Coverage guarantee: the single-step bound -/

theorem valueCounts_length (l : List Item) :
    (valueCounts l).length = (uniqFirst l).length := by
  unfold valueCounts
  rw [(perm_sortDesc (fun ci : Item × Nat => ci.2) _).length_eq,
    List.length_map]

theorem valueCounts_keys_nodup (l : List Item) :
    ((valueCounts l).map Prod.fst).Nodup := by
  unfold valueCounts
  have hperm := (perm_sortDesc (fun ci : Item × Nat => ci.2)
    ((uniqFirst l).map
      (fun i => (i, (l.filter (fun j => j = i)).length)))).map Prod.fst
  rw [hperm.nodup_iff, List.map_map]
  have hid : (Prod.fst ∘ fun i : Item =>
      (i, (l.filter (fun j => j = i)).length)) = id := rfl
  rw [hid, List.map_id]
  exact nodup_uniqFirst l

/-- However the augmenter is entered, the product's bucket afterwards covers
at least `min 5 C` consequents, where `C` is the number of distinct items
co-occurring with the product. -/
theorem augmentStep_coverage_bound (pairs : Pairs)
    (m : List (Item × List Rule)) (p : Item) :
    min 5 (uniqFirst (coItemsOf pairs p)).length ≤
      coverageCount ((lookupGroup (augmentStep pairs m p) p).getD []) := by
  by_cases h5 : 5 ≤ coverageCount ((lookupGroup m p).getD [])
  · rw [(augment_coverage_multiplicity pairs m p).1 h5]
    calc min 5 (uniqFirst (coItemsOf pairs p)).length ≤ 5 :=
      Nat.min_le_left _ _
    _ ≤ _ := h5
  · push_neg at h5
    rw [(augment_coverage_multiplicity pairs m p).2 h5]
    -- the number of skipped candidates is bounded by the current coverage
    have hrem : ((valueCounts (coItemsOf pairs p)).filter (fun ci =>
        (lookupGroup m p).isSome &&
          ((lookupGroup m p).getD []).any
            (fun r => r.consequents.contains ci.1))).length ≤
        coverageCount ((lookupGroup m p).getD []) := by
      cases hE : lookupGroup m p with
      | none =>
        have hnil : ((valueCounts (coItemsOf pairs p)).filter (fun ci =>
            (none : Option (List Rule)).isSome &&
              ((none : Option (List Rule)).getD []).any
                (fun r => r.consequents.contains ci.1))).length = 0 := by
          rw [List.length_eq_zero, List.filter_eq_nil_iff]
          intro ci _
          simp
        rw [hnil]
        exact Nat.zero_le _
      | some existing =>
        simp only [Option.isSome_some, Bool.true_and, Option.getD_some]
        have hkeysnd : (((valueCounts (coItemsOf pairs p)).filter (fun ci =>
            existing.any (fun r => r.consequents.contains ci.1))).map
              Prod.fst).Nodup :=
          List.Nodup.sublist ((List.filter_sublist _).map _)
            (valueCounts_keys_nodup _)
        have hsubset : ∀ x ∈ ((valueCounts (coItemsOf pairs p)).filter
            (fun ci => existing.any
              (fun r => r.consequents.contains ci.1))).map Prod.fst,
            x ∈ (existing.map (fun r => r.consequents)).flatten := by
          intro x hx
          rcases List.mem_map.mp hx with ⟨ci, hci, rfl⟩
          have hpred := (List.mem_filter.mp hci).2
          rw [List.any_eq_true] at hpred
          rcases hpred with ⟨r, hr, hcont⟩
          have hmem : ci.1 ∈ r.consequents := by simpa using hcont
          exact List.mem_flatten.mpr ⟨r.consequents,
            List.mem_map.mpr ⟨r, hr, rfl⟩, hmem⟩
        have hlen := nodup_subset_length_le hkeysnd hsubset
        rw [List.length_map] at hlen
        have hflat : (existing.map (fun r => r.consequents)).flatten.length =
            coverageCount existing := by
          rw [List.length_flatten, List.map_map]
          unfold coverageCount
          congr 1
        exact hflat ▸ hlen
    have hsplit : (valueCounts (coItemsOf pairs p)).length =
        (augNewRules pairs m p).length +
          ((valueCounts (coItemsOf pairs p)).filter (fun ci =>
            (lookupGroup m p).isSome &&
              ((lookupGroup m p).getD []).any
                (fun r => r.consequents.contains ci.1))).length := by
      have hmap : (augNewRules pairs m p).length =
          ((valueCounts (coItemsOf pairs p)).filter (fun ci =>
            !((lookupGroup m p).isSome &&
              ((lookupGroup m p).getD []).any
                (fun r => r.consequents.contains ci.1)))).length := by
        unfold augNewRules
        rw [List.length_map]
      rw [hmap]
      have hnotnot : ((valueCounts (coItemsOf pairs p)).filter (fun ci =>
          !(!((lookupGroup m p).isSome &&
            ((lookupGroup m p).getD []).any
              (fun r => r.consequents.contains ci.1))))) =
          ((valueCounts (coItemsOf pairs p)).filter (fun ci =>
            (lookupGroup m p).isSome &&
              ((lookupGroup m p).getD []).any
                (fun r => r.consequents.contains ci.1))) :=
        List.filter_congr (fun ci _ => Bool.not_not _)
      rw [← hnotnot]
      exact List.length_eq_length_filter_add _
    have hC := valueCounts_length (coItemsOf pairs p)
    omega

/-- C1 (amended): coverage guarantee.  PROVIDED apriori finds at least one
frequent itemset (otherwise the endpoint returns the empty list before the
augmentation pass runs — see the counterexample), the untruncated returned
list contains, over the rules whose antecedent is exactly the item `p`, at
least `min 5 C` consequents counted once per rule, where `C` is the number
of distinct items co-occurring with `p` in some transaction. -/
theorem coverage_guarantee (pairs : Pairs) (ms mc : ℚ) (rs : List Rule)
    (h : mine pairs ms mc 0 = Except.ok rs) (hne : aprioriRun pairs ms ≠ [])
    (p : Item) (hp : p ∈ uniqFirst (pairs.map Prod.snd)) :
    min 5 (uniqFirst (coItemsOf pairs p)).length ≤
      coverageCount (rs.filter (fun r => decide (r.antecedents = [p]))) := by
  have h0 : ¬ ms ≤ 0 := by
    intro h0
    rw [mine_eq_error pairs ms mc 0 h0] at h
    cases h
  rw [mine_eq_of_pos pairs ms mc 0 h0, if_neg hne] at h
  rw [if_neg (show ¬ ((0:Int) < 0 ∧ (0:Int) < ((sortDesc (fun r => r.lift)
    (minedAndAugmented pairs ms mc)).length : Int)) by simp)] at h
  injection h with h2
  subst h2
  have hperm := ((perm_sortDesc (fun r : Rule => r.lift)
    (minedAndAugmented pairs ms mc)).filter
      (fun r => decide (r.antecedents = [p]))).map
    (fun r => r.consequents.length)
  unfold coverageCount
  rw [hperm.sum_eq]
  have hM0 := minedGrouping_inv
    (associationRules pairs (aprioriRun pairs ms) mc) []
    (fun e he => absurd he (List.not_mem_nil e)) List.nodup_nil
  have hMA : KeyedAnte (augmentAll pairs
      (minedGrouping (associationRules pairs (aprioriRun pairs ms) mc))) :=
    keyedAnte_foldl _ _ hM0.1
  have hMK : KeysNodup (augmentAll pairs
      (minedGrouping (associationRules pairs (aprioriRun pairs ms) mc))) :=
    keysNodup_foldl _ _ hM0.2
  have hflt := filter_rulesOf_eq_lookup (p := p) hMA hMK
  show min 5 (uniqFirst (coItemsOf pairs p)).length ≤
    coverageCount ((minedAndAugmented pairs ms mc).filter
      (fun r => decide (r.antecedents = [p])))
  unfold minedAndAugmented
  rw [hflt]
  obtain ⟨l₁, l₂, hprod⟩ := List.append_of_mem hp
  have hnd2 := nodup_uniqFirst (pairs.map Prod.snd)
  rw [hprod] at hnd2
  have hp2 : p ∉ l₂ := by
    have := (List.nodup_append.mp hnd2).2.1
    exact (List.nodup_cons.mp this).1
  unfold augmentAll
  rw [hprod, List.foldl_append, List.foldl_cons,
    lookup_foldl_not_mem l₂ _ p hp2]
  exact augmentStep_coverage_bound pairs _ p

/-! ## Concrete instances: witnesses and counterexamples

The rational arithmetic of the pipeline is evaluated by the kernel; the
arithmetic primitives on `Rat` are irreducible by default and are made
semireducible locally for these closed computations. -/

section ConcreteInstances

attribute [local semireducible] Rat.add Rat.mul Rat.inv Rat.sub Rat.ofScientific

/-- C2 counterexample: `min_support = 3/2` lies outside `(0, 1]`, yet the
endpoint raises no configuration error — it silently returns the empty rule
list. -/
theorem minSupport_validation_cex :
    mine [(1,0)] (3/2) (1/10) 20 = Except.ok [] := rfl

/-- C2 witness. -/
theorem minSupport_validation_witness :
    mine [(1,0)] (-1) (1/2) 5 = Except.error
      "min_support must be a positive number within the interval (0, 1]" ∧
    mine [(1,0)] 2 (1/2) 5 = Except.ok [] :=
  ⟨(minSupport_validation [(1,0)] (-1) (1/2) 5).1 (by norm_num),
   (minSupport_validation [(1,0)] 2 (1/2) 5).2 (by norm_num)⟩

/-- C3 witness. -/
theorem mine_empty_input_witness :
    mine [] (1/2) (1/10) 5 = Except.ok [] :=
  mine_empty_input (1/2) (1/10) 5 (by norm_num)

/-- C9 witness: at `min_support = 3/4` no itemset is frequent, and the
endpoint returns the empty list even though item 0 has the co-occurring
companion 1. -/
theorem zero_frequent_empty_output_witness :
    coItemsOf [(1,0),(1,1),(2,2)] 0 = [1] ∧
    mine [(1,0),(1,1),(2,2)] (3/4) (1/10) 0 = Except.ok [] :=
  ⟨rfl, zero_frequent_empty_output [(1,0),(1,1),(2,2)] (3/4) (1/10) 0
    (by norm_num) rfl⟩

/-- C1 counterexample: item 0 appears in a transaction and co-occurs with
exactly one other item, so the claimed guarantee demands at least
`min 5 1 = 1` consequent for it; but at `min_support = 3/4` the
frequent-itemset table is empty, the augmentation pass never runs, and the
returned list is empty — coverage 0. -/
theorem coverage_guarantee_cex :
    mine [(1,0),(1,1),(2,2)] (3/4) (1/10) 0 = Except.ok [] ∧
    (0 : Nat) ∈ uniqFirst ([(1,0),(1,1),(2,2)].map Prod.snd) ∧
    ¬ (min 5 (uniqFirst (coItemsOf [(1,0),(1,1),(2,2)] 0)).length ≤
        coverageCount (([] : List Rule).filter
          (fun r => decide (r.antecedents = [0])))) :=
  ⟨rfl, by decide, by decide⟩

/-- C1 witness. -/
theorem coverage_guarantee_witness :
    min 5 (uniqFirst (coItemsOf [(1,0),(1,1),(2,0)] 0)).length ≤
      coverageCount (([Rule.mk [0] [1] (1/2) (1/2) 1,
        Rule.mk [1] [0] (1/2) 1 1]).filter
          (fun r => decide (r.antecedents = [0]))) :=
  coverage_guarantee [(1,0),(1,1),(2,0)] (1/2) (1/2)
    [Rule.mk [0] [1] (1/2) (1/2) 1, Rule.mk [1] [0] (1/2) 1 1]
    rfl (by decide) 0 (by decide)

/-- C4 counterexample: with a duplicated row `(1, 1)` the synthesized rule
0 → 1 reports confidence 1 from raw row counts, while
support({0,1})/support({0}) = (1/3)/(2/3) = 1/2 — off by 1/2, far beyond
the 1e-9 tolerance. -/
theorem rule_validity_cex :
    mine [(1,0),(1,1),(1,1),(2,0),(3,1)] (1/2) (1/2) 0 = Except.ok
      [Rule.mk [0] [1] (2/3) 1 (3/2), Rule.mk [1] [0] (1/3) (1/2) (3/4)] ∧
    ¬ (|(Rule.mk [0] [1] (2/3) 1 (3/2)).confidence -
        support [(1,0),(1,1),(1,1),(2,0),(3,1)]
            ((Rule.mk [0] [1] (2/3) 1 (3/2)).antecedents ++
              (Rule.mk [0] [1] (2/3) 1 (3/2)).consequents) /
          support [(1,0),(1,1),(1,1),(2,0),(3,1)]
            (Rule.mk [0] [1] (2/3) 1 (3/2)).antecedents| ≤ 1 / 1000000000) :=
  ⟨rfl, by decide⟩

/-- C4 witness (duplicate-free input). -/
theorem rule_validity_witness :
    (Rule.mk [0] [1] (1/2) (1/2) 1).antecedents.Disjoint
      (Rule.mk [0] [1] (1/2) (1/2) 1).consequents ∧
    |(Rule.mk [0] [1] (1/2) (1/2) 1).confidence -
      support [(1,0),(1,1),(2,0)]
          ((Rule.mk [0] [1] (1/2) (1/2) 1).antecedents ++
            (Rule.mk [0] [1] (1/2) (1/2) 1).consequents) /
        support [(1,0),(1,1),(2,0)]
          (Rule.mk [0] [1] (1/2) (1/2) 1).antecedents| ≤ 1 / 1000000000 :=
  ⟨(rule_validity [(1,0),(1,1),(2,0)] (1/2) (1/2) 0
    [Rule.mk [0] [1] (1/2) (1/2) 1, Rule.mk [1] [0] (1/2) 1 1] rfl
    (Rule.mk [0] [1] (1/2) (1/2) 1) (List.mem_cons_self _ _)).1,
   (rule_validity [(1,0),(1,1),(2,0)] (1/2) (1/2) 0
    [Rule.mk [0] [1] (1/2) (1/2) 1, Rule.mk [1] [0] (1/2) 1 1] rfl
    (Rule.mk [0] [1] (1/2) (1/2) 1) (List.mem_cons_self _ _)).2 (by decide)⟩

/-- C5 counterexample: a returned list with two equal-lift rules in
ASCENDING confidence order (2/3 before 1): lift is the only sort key, so
the claimed confidence tie-break does not happen. -/
theorem sorted_by_lift_stable_cex :
    mine [(1,0),(1,1),(2,0),(2,1),(3,0),(4,1),(5,1),(6,2),(6,3),(7,2),
        (7,3),(8,3),(9,3),(10,3),(11,3),(12,4)] (1/12) (3/5) 0 =
      Except.ok
        [Rule.mk [0] [1] (1/6) (2/3) 2, Rule.mk [2] [3] (1/6) 1 2,
         Rule.mk [1] [0] (1/6) (1/2) 2, Rule.mk [3] [2] (1/6) (1/3) 2] ∧
    (Rule.mk [0] [1] (1/6) (2/3) 2).lift = (Rule.mk [2] [3] (1/6) 1 2).lift ∧
    (Rule.mk [0] [1] (1/6) (2/3) 2).confidence <
      (Rule.mk [2] [3] (1/6) 1 2).confidence :=
  ⟨rfl, rfl, by norm_num⟩

/-- C5 witness. -/
theorem sorted_by_lift_stable_witness :
    List.Pairwise (fun a b : Rule => b.lift ≤ a.lift) ([] : List Rule) ∧
    (sortDesc (fun r : Rule => r.lift)
        (minedAndAugmented [(1,0)] (1/2) (1/2))).filter
          (fun r => decide (r.lift = 1)) =
      (minedAndAugmented [(1,0)] (1/2) (1/2)).filter
        (fun r => decide (r.lift = 1)) :=
  ⟨(sorted_by_lift_stable [(1,0)] (1/2) (1/2) 0 [] rfl).1,
   (sorted_by_lift_stable [(1,0)] (1/2) (1/2) 0 [] rfl).2 1⟩

/-- C6 witness. -/
theorem truncation_law_witness :
    mine [(1,0),(1,1),(2,0),(2,1),(2,2),(3,0),(4,1),(4,2)] (1/4) (1/2) 1 =
      Except.map (List.take (Int.toNat 1))
        (mine [(1,0),(1,1),(2,0),(2,1),(2,2),(3,0),(4,1),(4,2)]
          (1/4) (1/2) 0) ∧
    mine [(1,0),(1,1),(2,0),(2,1),(2,2),(3,0),(4,1),(4,2)] (1/4) (1/2) (-3) =
      mine [(1,0),(1,1),(2,0),(2,1),(2,2),(3,0),(4,1),(4,2)] (1/4) (1/2) 0 :=
  ⟨((truncation_law [(1,0),(1,1),(2,0),(2,1),(2,2),(3,0),(4,1),(4,2)]
      (1/4) (1/2) 1).1 (by norm_num)).1,
   (truncation_law [(1,0),(1,1),(2,0),(2,1),(2,2),(3,0),(4,1),(4,2)]
      (1/4) (1/2) (-3)).2 (by norm_num)⟩

/-- C7 witness. -/
theorem duplicate_row_invariant_witness :
    basketMem ((1,0) :: [(1,0),(1,1)]) 1 1 = basketMem [(1,0),(1,1)] 1 1 ∧
    txnIds ((1,0) :: [(1,0),(1,1)]) = txnIds [(1,0),(1,1)] ∧
    itemIds ((1,0) :: [(1,0),(1,1)]) = itemIds [(1,0),(1,1)] ∧
    aprioriRun ((1,0) :: [(1,0),(1,1)]) (1/2) =
      aprioriRun [(1,0),(1,1)] (1/2) :=
  ⟨(duplicate_row_invariant [(1,0),(1,1)] (1,0) (1/2) (by decide)).1 1 1,
   (duplicate_row_invariant [(1,0),(1,1)] (1,0) (1/2) (by decide)).2.1,
   (duplicate_row_invariant [(1,0),(1,1)] (1,0) (1/2) (by decide)).2.2.1,
   (duplicate_row_invariant [(1,0),(1,1)] (1,0) (1/2) (by decide)).2.2.2⟩

/-- C8 witness. -/
theorem single_item_antecedent_witness :
    (Rule.mk [0] [1] (1/2) (1/2) 1).antecedents.length = 1 :=
  single_item_antecedent [(1,0),(1,1),(2,0)] (1/2) (1/2) 0
    [Rule.mk [0] [1] (1/2) (1/2) 1, Rule.mk [1] [0] (1/2) 1 1] rfl
    (Rule.mk [0] [1] (1/2) (1/2) 1) (List.mem_cons_self _ _)

/-- C10 witness: a bucket holding two rules with consequent lists of sizes
3 and 2 has multiplicity coverage 5 (only 3 DISTINCT consequent items), and
the augmenter leaves it untouched although six items co-occur with the
product; an empty dict is augmented by exactly `min 5 N` singleton rules. -/
theorem augment_coverage_multiplicity_witness :
    augmentStep [(1,0),(1,1),(1,2),(1,3),(1,4),(1,5),(2,0),(2,6)]
        [(0, [Rule.mk [0] [1,2,3] 1 1 1, Rule.mk [0] [1,2] 1 1 1])] 0 =
      [(0, [Rule.mk [0] [1,2,3] 1 1 1, Rule.mk [0] [1,2] 1 1 1])] ∧
    coverageCount ((lookupGroup (augmentStep
        [(1,0),(1,1),(1,2),(1,3),(1,4),(1,5),(2,0),(2,6)]
        ([] : List (Item × List Rule)) 0) 0).getD []) =
      coverageCount ((lookupGroup ([] : List (Item × List Rule)) 0).getD [])
        + min (5 - coverageCount
            ((lookupGroup ([] : List (Item × List Rule)) 0).getD []))
          (augNewRules [(1,0),(1,1),(1,2),(1,3),(1,4),(1,5),(2,0),(2,6)]
            ([] : List (Item × List Rule)) 0).length :=
  ⟨(augment_coverage_multiplicity
      [(1,0),(1,1),(1,2),(1,3),(1,4),(1,5),(2,0),(2,6)]
      [(0, [Rule.mk [0] [1,2,3] 1 1 1, Rule.mk [0] [1,2] 1 1 1])] 0).1
      (by decide),
   (augment_coverage_multiplicity
      [(1,0),(1,1),(1,2),(1,3),(1,4),(1,5),(2,0),(2,6)]
      ([] : List (Item × List Rule)) 0).2 (by decide)⟩

end ConcreteInstances

end MBMining
